import Mathlib

/-!
Shallow embedding of the `dag` repository (Rust sources `src/graph.rs`,
`src/generator.rs`, `src/validator.rs`) together with theorems settling the
frozen claims about it.

Modelling conventions:
* `uuid::Uuid` (a 128-bit identifier) is modelled as `Nat`; only equality of
  identifiers is ever used by the code.
* `HashMap<Uuid, Node>` is modelled as an association list with unique keys
  (the store only ever inserts through the vacant-entry branch, so keys stay
  unique); `HashSet<Uuid>` as a duplicate-free `List Uuid`.  Hash iteration
  order is unspecified in Rust; the model fixes the insertion order, and every
  theorem proved below is order-independent on the graphs it covers.
* Rust panics (`panic!("UUID collision detected")`, `.unwrap()` in the
  generator) are modelled as `Option`/dedicated error values.
* `&self` methods cannot mutate the receiver; a method taking `&mut self`
  returns the updated state explicitly.  `add_child` returns the pair
  (result, post-state) so that "the graph is unchanged on rejection" is a
  provable statement rather than a modelling artefact.
-/

namespace Dag

/-- Node identifier (`uuid::Uuid`), modelled as a natural number. -/
abbrev Uuid := Nat

/-- Source `graph.rs`: `enum NodeData { Number(u64), Text(String), None }`. -/
inductive NodeData where
  | Number (n : Nat)
  | Text (s : String)
  | None
deriving DecidableEq

/-- Source `graph.rs`: `struct Node { name, data, childs }`. -/
structure Node where
  name : Option String
  data : NodeData
  childs : List Uuid
deriving DecidableEq

/-- Source `graph.rs`: `struct AcyclicGraph { name, nodes }`. -/
structure AcyclicGraph where
  name : String
  nodes : List (Uuid × Node)
deriving DecidableEq

/-- Source `graph.rs`: `enum Error { Cycle{src,dst}, UuidNotFound{uuid}, ChildAlreadyExist{parent,child} }`. -/
inductive Error where
  | Cycle (src dst : Uuid)
  | UuidNotFound (uuid : Uuid)
  | ChildAlreadyExist (parent child : Uuid)
deriving DecidableEq

/-- Model of `HashMap::get` on the association-list model of the node map. -/
def lookupNode : List (Uuid × Node) → Uuid → Option Node
  | [], _ => none
  | e :: es, u => if e.1 = u then some e.2 else lookupNode es u

@[simp] theorem lookupNode_nil (u : Uuid) : lookupNode [] u = none := rfl

theorem lookupNode_cons (e : Uuid × Node) (es : List (Uuid × Node)) (u : Uuid) :
    lookupNode (e :: es) u = if e.1 = u then some e.2 else lookupNode es u := rfl

/-- Source `AcyclicGraph::new`. -/
def AcyclicGraph.new (name : String) : AcyclicGraph := ⟨name, []⟩

/-- The key set of the node map (as a list). -/
def AcyclicGraph.keys (g : AcyclicGraph) : List Uuid := g.nodes.map Prod.fst

/-- Source `AcyclicGraph::get_node`. -/
def AcyclicGraph.get_node (g : AcyclicGraph) (uuid : Uuid) : Except Error Node :=
  match lookupNode g.nodes uuid with
  | some node => .ok node
  | none => .error (.UuidNotFound uuid)

/-- Source `AcyclicGraph::add_node_uuid`: vacant-entry insertion; the occupied branch
is `panic!("UUID collision detected")`, modelled as `none`. -/
def AcyclicGraph.add_node_uuid (g : AcyclicGraph) (uuid : Uuid) (name : Option String)
    (data : NodeData) : Option AcyclicGraph :=
  match lookupNode g.nodes uuid with
  | some _ => none
  | none => some { g with nodes := (uuid, ⟨name, data, []⟩) :: g.nodes }

/-- The edge relation of the store, as a boolean: `a` has `b` in its `childs` set. -/
def edgeB (g : AcyclicGraph) (a b : Uuid) : Bool :=
  match lookupNode g.nodes a with
  | some n => n.childs.contains b
  | none => false

/-- Reachability: `child` can reach `parent` following zero or more `childs` edges. -/
def Reach (g : AcyclicGraph) (a b : Uuid) : Prop :=
  Relation.ReflTransGen (fun x y => edgeB g x y = true) a b

/-- Graph invariant 1 (no dangling edges): every identifier in any node's
`childs` set is a key of the node map. -/
def WF (g : AcyclicGraph) : Prop :=
  ∀ e ∈ g.nodes, ∀ c ∈ e.2.childs, c ∈ g.keys

instance (g : AcyclicGraph) : Decidable (WF g) :=
  decidable_of_iff (∀ e ∈ g.nodes, ∀ c ∈ e.2.childs, c ∈ g.keys) Iff.rfl

/-- Graph invariant 2: the edge relation contains no cycle. -/
def Acyclic (g : AcyclicGraph) : Prop :=
  ∀ a b : Uuid, edgeB g a b = true → ¬ Reach g b a

/-- The association list has duplicate-free keys (maintained because insertion
only happens through the vacant `Entry` branch). -/
def KeysNodup (g : AcyclicGraph) : Prop := g.keys.Nodup

instance (g : AcyclicGraph) : Decidable (KeysNodup g) :=
  inferInstanceAs (Decidable (g.keys.Nodup))

/-- Every `childs` set is duplicate-free (`HashSet` semantics). -/
def ChildsNodup (g : AcyclicGraph) : Prop :=
  ∀ e ∈ g.nodes, e.2.childs.Nodup

instance (g : AcyclicGraph) : Decidable (ChildsNodup g) :=
  decidable_of_iff (∀ e ∈ g.nodes, e.2.childs.Nodup) Iff.rfl

/-! ### Breadth-first cycle scan (`AcyclicGraph::check_cycle`)

The Rust loop pops from a `VecDeque`, tests the popped id against `parent`,
looks the id up (returning `UuidNotFound` on a miss) and enqueues every child
not yet in the `queued` set.  The loop always terminates because each queue
push is guarded by a fresh insertion into `queued`; the model makes this a
fuel-indexed recursion plus a proof (`bfsCycle_fuel_sufficient` below) that the
fuel chosen by `check_cycle` never runs out. -/

/-- All identifiers mentioned anywhere in the store: keys plus all children. -/
def allIds (g : AcyclicGraph) : Finset Uuid :=
  g.nodes.foldr (fun e acc => insert e.1 (e.2.childs.foldr insert acc)) ∅

/-- Enqueue step: `for &child in &node.childs { if queued.insert(child) { queue.push_back(child) } }`. -/
def enqueueChilds : List Uuid → List Uuid → Finset Uuid → List Uuid × Finset Uuid
  | [], queue, queued => (queue, queued)
  | ch :: rest, queue, queued =>
    if ch ∈ queued then enqueueChilds rest queue queued
    else enqueueChilds rest (queue ++ [ch]) (insert ch queued)

/-- The `while let Some(current) = queue.pop_front()` loop of `check_cycle`. -/
def bfsCycle (g : AcyclicGraph) (parent child : Uuid) :
    Nat → List Uuid → Finset Uuid → Option (Except Error Unit)
  | 0, _, _ => none
  | _ + 1, [], _ => some (.ok ())
  | fuel + 1, current :: queue, queued =>
    if current = parent then some (.error (.Cycle parent child))
    else
      match lookupNode g.nodes current with
      | none => some (.error (.UuidNotFound current))
      | some node =>
        let qs := enqueueChilds node.childs queue queued
        bfsCycle g parent child fuel qs.1 qs.2

/-- Fuel that provably suffices for the scan: one more than the number of
identifiers that can ever enter `queued`. -/
def cycleFuel (g : AcyclicGraph) (child : Uuid) : Nat :=
  (insert child (allIds g)).card + 1

/-- Source `AcyclicGraph::check_cycle`.  The `getD` default is dead code: the fuel is
proved sufficient (`check_cycle_eq_bfs`). -/
def AcyclicGraph.check_cycle (g : AcyclicGraph) (parent child : Uuid) : Except Error Unit :=
  (bfsCycle g parent child (cycleFuel g child) [child] {child}).getD (.ok ())

/-- Model of `HashSet::insert` on a node's `childs` set: inserts `child` into `parent`'s
entry (no-op when `parent` is absent, which `add_child` has already ruled out). -/
def insertChildList : List (Uuid × Node) → Uuid → Uuid → List (Uuid × Node)
  | [], _, _ => []
  | e :: es, p, c =>
    if e.1 = p then (e.1, { e.2 with childs := c :: e.2.childs }) :: es
    else e :: insertChildList es p c

/-- Post-state of a successful `add_child`. -/
def AcyclicGraph.insertChild (g : AcyclicGraph) (parent child : Uuid) : AcyclicGraph :=
  { g with nodes := insertChildList g.nodes parent child }

/-- Source `AcyclicGraph::add_child`, returning (result, post-state).  The cycle scan
runs first; then the parent is looked up; `childs.insert` returns `false`
(leaving the set unchanged) when the edge already exists. -/
def AcyclicGraph.add_child (g : AcyclicGraph) (parent child : Uuid) :
    Except Error Unit × AcyclicGraph :=
  match g.check_cycle parent child with
  | .error e => (.error e, g)
  | .ok _ =>
    match lookupNode g.nodes parent with
    | none => (.error (.UuidNotFound parent), g)
    | some node =>
      if node.childs.contains child then (.error (.ChildAlreadyExist parent child), g)
      else (.ok (), g.insertChild parent child)

/-- Source `AcyclicGraph::parents` restricted to one key: the set of parents of `u`
(the reverse-adjacency entry for `u`); `u` is a key of `parents()` iff this
list is nonempty. -/
def parentsOf (g : AcyclicGraph) (u : Uuid) : List Uuid :=
  (g.nodes.filter (fun e => u ∈ e.2.childs)).map Prod.fst

instance {ε α : Type} [DecidableEq ε] [DecidableEq α] : DecidableEq (Except ε α) := fun a b =>
  match a, b with
  | .ok x, .ok y => decidable_of_iff (x = y) (by simp)
  | .error x, .error y => decidable_of_iff (x = y) (by simp)
  | .ok _, .error _ => isFalse (by simp)
  | .error _, .ok _ => isFalse (by simp)

/-! ### Operation sequences on the store (for the invariant claim)

The public mutating surface of `AcyclicGraph` is node creation
(`add_node` / `add_node_with_rng`, both of which pick some identifier and call
`add_node_uuid`) and `add_child`.  A `panic!` (uuid collision) aborts the
process, so a run that panics has no subsequent states. -/

/-- One mutating call on the store. -/
inductive Op where
  | addNode (uuid : Uuid) (name : Option String) (data : NodeData)
  | addChild (parent child : Uuid)
deriving DecidableEq

/-- Apply one operation: `none` models a panic (process abort); an `add_child`
rejection is a recoverable `Err`, leaving the state it returned. -/
def applyOp (g : AcyclicGraph) : Op → Option AcyclicGraph
  | .addNode u name data => g.add_node_uuid u name data
  | .addChild p c => some (g.add_child p c).2

/-- Run a sequence of operations from a starting state. -/
def runOps (g : AcyclicGraph) : List Op → Option AcyclicGraph
  | [] => some g
  | op :: ops =>
    match applyOp g op with
    | none => none
    | some g' => runOps g' ops

/-! ### Validator (`src/validator.rs`)

`validator` returns `Result<(), ()>`: the `Err` payload is the unit value.
Its verdict depends only on the root count and on the path-uniqueness walk;
the statistics (`average_childs`, `max_deepth`, `average_width_without_root`)
are written to stderr and never influence the result. -/

/-- Source `validator.rs::roots`: keys of the node map that do not occur as keys of
the `parents()` reverse-adjacency, i.e. nodes with no incoming edge. -/
def rootsList (g : AcyclicGraph) : List Uuid :=
  (g.keys).filter (fun u => parentsOf g u = [])

/-- One `for &child in node.childs()` pass of `have_only_one_path`:
`if visited.insert(child) { queue.push_back(child) } else { return false }`.
`none` models the early `return false`. -/
def visitChilds : List Uuid → List Uuid → Finset Uuid → Option (List Uuid × Finset Uuid)
  | [], queue, visited => some (queue, visited)
  | ch :: rest, queue, visited =>
    if ch ∈ visited then none
    else visitChilds rest (queue ++ [ch]) (insert ch visited)

/-- The `while let Some(current) = queue.pop_front()` loop of
`have_only_one_path` (fuel-indexed; the fuel is proved sufficient below). -/
def bfsPath (g : AcyclicGraph) : Nat → List Uuid → Finset Uuid → Option Bool
  | 0, _, _ => none
  | _ + 1, [], _ => some true
  | fuel + 1, current :: queue, visited =>
    match lookupNode g.nodes current with
    | none => bfsPath g fuel queue visited
    | some node =>
      match visitChilds node.childs queue visited with
      | none => some false
      | some qs => bfsPath g fuel qs.1 qs.2

/-- Fuel that provably suffices for the path walk. -/
def pathFuel (g : AcyclicGraph) (root : Uuid) : Nat :=
  (insert root (allIds g)).card + 1

/-- Source `validator.rs::have_only_one_path`. -/
def have_only_one_path (g : AcyclicGraph) (root : Uuid) : Bool :=
  (bfsPath g (pathFuel g root) [root] {root}).getD true

/-- Model of `HashMap::entry(..).and_modify(|d| *d = (*d).max(cur)).or_insert(cur)`
on the association-list model of the depth map. -/
def updateMaxEntry : List (Uuid × Nat) → Uuid → Nat → List (Uuid × Nat)
  | [], u, d => [(u, d)]
  | e :: es, u, d =>
    if e.1 = u then (e.1, Nat.max e.2 d) :: es else e :: updateMaxEntry es u d

/-- Model of `HashSet::insert` on the list model of `next_queue`. -/
def insertOnce (x : Uuid) (l : List Uuid) : List Uuid :=
  if x ∈ l then l else l ++ [x]

/-- One round of the `deepths` propagation loop: for every queued id, bump
every parent's depth entry to at least `curD` and queue the parent. -/
def deepthsRound (g : AcyclicGraph) (curD : Nat) (queue : List Uuid)
    (m : List (Uuid × Nat)) : List (Uuid × Nat) × List Uuid :=
  queue.foldl
    (fun acc u =>
      (parentsOf g u).foldl (fun acc2 p => (updateMaxEntry acc2.1 p curD, insertOnce p acc2.2))
        acc)
    (m, [])

/-- The `while !queue.is_empty()` loop of `validator.rs::deepths`
(fuel-indexed; on the acyclic graphs the program produces, `g.nodes.length + 1`
rounds always suffice because each round strictly increases the propagated
depth along some path). -/
def deepthsLoop (g : AcyclicGraph) : Nat → Nat → List Uuid → List (Uuid × Nat) → List (Uuid × Nat)
  | 0, _, _, m => m
  | fuel + 1, curD, queue, m =>
    match queue with
    | [] => m
    | _ :: _ =>
      let step := deepthsRound g curD queue m
      deepthsLoop g fuel (curD + 1) step.2 step.1

/-- Source `validator.rs::deepths`: seed every childless node with depth 0, then
propagate maxima towards parents. -/
def deepths (g : AcyclicGraph) : List (Uuid × Nat) :=
  let leaves := (g.nodes.filter (fun e => e.2.childs = [])).map Prod.fst
  deepthsLoop g (g.nodes.length + 1) 1 leaves (leaves.map (fun u => (u, 0)))

/-- Source `validator.rs::max_deepth`: `deepths(..).values().max().unwrap_or(0)`. -/
def max_deepth (g : AcyclicGraph) : Nat :=
  ((deepths g).map Prod.snd).foldr Nat.max 0

/-- The `while !current_level.is_empty()` loop of `validator.rs::levels`
(fuel-indexed; bounded on acyclic graphs by the longest path length). -/
def levelsLoop (g : AcyclicGraph) : Nat → List Uuid → List (List Uuid) → List (List Uuid)
  | 0, _, acc => acc.reverse
  | fuel + 1, current, acc =>
    match current with
    | [] => acc.reverse
    | _ :: _ =>
      let nextLevel := current.foldl
        (fun nl u =>
          match lookupNode g.nodes u with
          | some node => nl ++ node.childs
          | none => nl)
        []
      levelsLoop g fuel nextLevel (current :: acc)

/-- Source `validator.rs::levels`. -/
def levels (g : AcyclicGraph) (root : Uuid) : List (List Uuid) :=
  levelsLoop g (g.nodes.length + 1) [root] []

/-- Source `validator.rs::validator`, keeping only what determines the result:
the statistics are printed to stderr and discarded.  The `Err` payload is the
unit value, exactly as in `Result<(), ()>`. -/
def validator (g : AcyclicGraph) : Except Unit Unit :=
  match rootsList g with
  | [root] => if have_only_one_path g root then .ok () else .error ()
  | _ => .error ()

/-! ### Generator (`src/generator.rs`)

`StdRng` (seeded from `cfg.seed`), the two `Normal` samplers, `shuffle`, the
random uuid bytes and the petname generator are the only sources of
randomness.  Their concrete bit-streams (ChaCha12, ziggurat sampling of `f64`
Gaussians) are not shallowly embeddable; the model abstracts the seeded rng as
an explicit oracle of already-drawn values, one indexed stream per use site.
`sample().round()` yields an integral `f64`, modelled as `Int`; the `.max(1.0)`
/ `.max(0.0)` clamps and the `as usize` cast are applied in the model exactly
where the source applies them. -/

/-- Source `generator.rs::Config`.  The `f64` distribution parameters are modelled as
rationals (`f64` NaN/infinities have no counterpart; see `normalNew`). -/
structure Config where
  name : Option String
  deepth : Nat
  width_mean : Rat
  width_std : Rat
  child_mean : Rat
  child_std : Rat
  seed : Nat
deriving DecidableEq

/-- Source `generator.rs::Error` plus a `Panic` value modelling process aborts
(the `unwrap` on `add_child` and the uuid-collision panic), which in Rust are
not `Err` values but end the run. -/
inductive GenError where
  | RandNormalDistribution
  | Panic
deriving DecidableEq

/-- Modelled from the spec: `rand_distr::Normal::new` (the crate is not part
of this repository's sources).  Per the spec, "constructing a sampler with a
non-positive standard deviation is a configuration error": construction fails
exactly when the standard deviation is not positive. -/
def normalNew (_mean std : Rat) : Except GenError Unit :=
  if std ≤ 0 then .error .RandNormalDistribution else .ok ()

/-- The seeded randomness of one `generate` run, as already-drawn values:
everything the run draws is a pure function of `cfg.seed`, so two runs with the
same seed see the same oracle. -/
structure GenOracle where
  graphPetname : Option String
  widthSample : Nat → Int
  childSample : Nat → Int
  shuffle : Nat → List Uuid → List Uuid
  freshUuid : Nat → Uuid
  petname : Nat → Option String

/-- Mutable state threaded through the generation loops: the graph under
construction plus the per-stream draw counters. -/
structure GenState where
  graph : AcyclicGraph
  uuidCtr : Nat
  childCtr : Nat
  nameCtr : Nat
deriving DecidableEq

/-- The `for _ in 0..k` loop body of `generate`: stop the whole level
(`break 'outer`, the `true` flag) when the running count `i` has reached the
level target `n`; otherwise create a node, attach it to `node`, push it onto
`next`.  A failing `add_child` is the generator's `.unwrap()` panic. -/
def attemptChilds (o : GenOracle) (node : Uuid) (n : Nat) :
    Nat → GenState → List Uuid → Nat → Except GenError (GenState × List Uuid × Nat × Bool)
  | 0, st, next, i => .ok (st, next, i, false)
  | k + 1, st, next, i =>
    if n ≤ i then .ok (st, next, i, true)
    else
      match st.graph.add_node_uuid (o.freshUuid st.uuidCtr) (o.petname st.nameCtr) .None with
      | none => .error .Panic
      | some g =>
        match g.add_child node (o.freshUuid st.uuidCtr) with
        | (.ok _, g') =>
          attemptChilds o node n k ⟨g', st.uuidCtr + 1, st.childCtr, st.nameCtr + 1⟩
            (next ++ [o.freshUuid st.uuidCtr]) (i + 1)
        | (.error _, _) => .error .Panic

/-- The `'outer: for &node in &current` loop of `generate`: draw the parent's
branching factor `k = sample.round().max(0.0) as usize`, then attempt `k`
children; a `true` break flag ends the level. -/
def levelParents (o : GenOracle) (n : Nat) :
    List Uuid → GenState → List Uuid → Nat → Except GenError (GenState × List Uuid)
  | [], st, next, _ => .ok (st, next)
  | node :: rest, st, next, i =>
    match attemptChilds o node n ((max (o.childSample st.childCtr) 0).toNat)
        ⟨st.graph, st.uuidCtr, st.childCtr + 1, st.nameCtr⟩ next i with
    | .error e => .error e
    | .ok (st2, next2, _, true) => .ok (st2, next2)
    | .ok (st2, next2, i2, false) => levelParents o n rest st2 next2 i2

/-- The `for _ in 1..cfg.deepth` loop of `generate`: per level draw the target
width `n = sample.round().max(1.0) as usize`, shuffle the frontier, spawn
children, then the next frontier replaces the current one. -/
def genLevels (o : GenOracle) :
    List Nat → List Uuid → GenState → Except GenError (GenState × List Uuid)
  | [], _, st => .ok (st, [])
  | l :: ls, current, st =>
    match levelParents o ((max (o.widthSample l) 1).toNat) (o.shuffle l current) st [] 0 with
    | .error e => .error e
    | .ok (st', next) => genLevels o ls next st'

/-- Source `generator.rs::generate`. -/
def generate (cfg : Config) (o : GenOracle) : Except GenError AcyclicGraph :=
  match normalNew cfg.width_mean cfg.width_std with
  | .error e => .error e
  | .ok _ =>
    match normalNew cfg.child_mean cfg.child_std with
    | .error e => .error e
    | .ok _ =>
      match (AcyclicGraph.new (cfg.name.getD (o.graphPetname.getD "output"))).add_node_uuid
          (o.freshUuid 0) (some "Root") (.Text "I'm the root of all evil") with
      | none => .error .Panic
      | some g =>
        match genLevels o (List.range' 1 (cfg.deepth - 1)) [o.freshUuid 0] ⟨g, 1, 0, 0⟩ with
        | .error e => .error e
        | .ok (st, _) => .ok st.graph

/-- Node count of the produced graph. -/
def nodeCount (g : AcyclicGraph) : Nat := g.nodes.length

/-- Edge count of the produced graph. -/
def edgeCount (g : AcyclicGraph) : Nat := (g.nodes.map (fun e => e.2.childs.length)).sum

/-- The per-level size sequence, derived from the finished graph by the
validator's own layering walk from the unique root. -/
def levelSizes (g : AcyclicGraph) : List Nat :=
  match rootsList g with
  | [root] => (levels g root).map List.length
  | _ => []

/-! ## Basic lemmas about the store -/

theorem lookupNode_mem {l : List (Uuid × Node)} {u : Uuid} {n : Node}
    (h : lookupNode l u = some n) : (u, n) ∈ l := by
  induction l with
  | nil => simp [lookupNode] at h
  | cons e es ih =>
    rw [lookupNode_cons] at h
    by_cases he : e.1 = u
    · rw [if_pos he] at h
      subst he
      injection h with h
      subst h
      simp
    · rw [if_neg he] at h
      exact List.mem_cons_of_mem _ (ih h)

theorem lookupNode_eq_none {l : List (Uuid × Node)} {u : Uuid} :
    lookupNode l u = none ↔ u ∉ l.map Prod.fst := by
  induction l with
  | nil => simp
  | cons e es ih =>
    rw [lookupNode_cons]
    by_cases he : e.1 = u
    · simp [he]
    · rw [if_neg he, ih]
      simp only [List.map_cons, List.mem_cons]
      constructor
      · rintro h (hc | hc)
        · exact he hc.symm
        · exact h hc
      · exact fun h hc => h (Or.inr hc)

theorem lookupNode_isSome_iff {l : List (Uuid × Node)} {u : Uuid} :
    (∃ n, lookupNode l u = some n) ↔ u ∈ l.map Prod.fst := by
  constructor
  · rintro ⟨n, h⟩
    exact List.mem_map.2 ⟨(u, n), lookupNode_mem h, rfl⟩
  · intro h
    rcases hl : lookupNode l u with _ | n
    · exact absurd h (lookupNode_eq_none.1 hl)
    · exact ⟨n, rfl⟩

theorem mem_keys_of_lookup {g : AcyclicGraph} {u : Uuid} {n : Node}
    (h : lookupNode g.nodes u = some n) : u ∈ g.keys :=
  lookupNode_isSome_iff.1 ⟨n, h⟩

theorem lookup_of_mem_keys {g : AcyclicGraph} {u : Uuid} (h : u ∈ g.keys) :
    ∃ n, lookupNode g.nodes u = some n :=
  lookupNode_isSome_iff.2 h

theorem edgeB_iff {g : AcyclicGraph} {a b : Uuid} :
    edgeB g a b = true ↔ ∃ n, lookupNode g.nodes a = some n ∧ b ∈ n.childs := by
  unfold edgeB
  rcases h : lookupNode g.nodes a with _ | n <;> simp [List.elem_iff]

theorem edgeB_target_mem_keys {g : AcyclicGraph} (hwf : WF g) {a b : Uuid}
    (h : edgeB g a b = true) : b ∈ g.keys := by
  obtain ⟨n, hl, hb⟩ := edgeB_iff.1 h
  exact hwf (a, n) (lookupNode_mem hl) b hb

theorem edgeB_source_mem_keys {g : AcyclicGraph} {a b : Uuid}
    (h : edgeB g a b = true) : a ∈ g.keys := by
  obtain ⟨n, hl, _⟩ := edgeB_iff.1 h
  exact mem_keys_of_lookup hl

theorem reach_of_lookup_none {g : AcyclicGraph} {a b : Uuid}
    (hl : lookupNode g.nodes a = none) (h : Reach g a b) : b = a := by
  rcases Relation.ReflTransGen.cases_head h with h | ⟨z, hz, _⟩
  · exact h.symm
  · rw [edgeB_iff] at hz
    obtain ⟨n, hn, _⟩ := hz
    rw [hl] at hn
    cases hn

theorem reach_of_childs_nil {g : AcyclicGraph} {a b : Uuid} {n : Node}
    (hl : lookupNode g.nodes a = some n) (hnil : n.childs = []) (h : Reach g a b) : b = a := by
  rcases Relation.ReflTransGen.cases_head h with h | ⟨z, hz, _⟩
  · exact h.symm
  · rw [edgeB_iff] at hz
    obtain ⟨n', hn', hmem⟩ := hz
    rw [hl] at hn'
    cases hn'
    simp [hnil] at hmem

theorem reach_target_mem_keys {g : AcyclicGraph} (hwf : WF g) {a b : Uuid}
    (h : Reach g a b) (hne : b ≠ a) : b ∈ g.keys := by
  rcases (Relation.ReflTransGen.cases_tail h) with h | ⟨z, _, hz⟩
  · exact absurd h hne
  · exact edgeB_target_mem_keys hwf hz

/-! ## `allIds` -/

theorem mem_foldr_insert {l : List Uuid} {acc : Finset Uuid} {x : Uuid} :
    x ∈ l.foldr insert acc ↔ x ∈ l ∨ x ∈ acc := by
  induction l with
  | nil => simp
  | cons a as ih => simp [ih, or_assoc]

theorem mem_allIds {g : AcyclicGraph} {x : Uuid} :
    x ∈ allIds g ↔ ∃ e ∈ g.nodes, x = e.1 ∨ x ∈ e.2.childs := by
  unfold allIds
  induction g.nodes with
  | nil => simp
  | cons e es ih =>
    simp only [List.foldr_cons, Finset.mem_insert, mem_foldr_insert, ih]
    constructor
    · rintro (h | h | h)
      · exact ⟨e, by simp, Or.inl h⟩
      · exact ⟨e, by simp, Or.inr h⟩
      · obtain ⟨e', he', h'⟩ := h
        exact ⟨e', by simp [he'], h'⟩
    · rintro ⟨e', he', h'⟩
      rcases List.mem_cons.1 he' with he' | he'
      · subst he'
        rcases h' with h' | h'
        · exact Or.inl h'
        · exact Or.inr (Or.inl h')
      · exact Or.inr (Or.inr ⟨e', he', h'⟩)

theorem key_mem_allIds {g : AcyclicGraph} {u : Uuid} {n : Node}
    (h : lookupNode g.nodes u = some n) : u ∈ allIds g :=
  mem_allIds.2 ⟨(u, n), lookupNode_mem h, Or.inl rfl⟩

theorem child_mem_allIds {g : AcyclicGraph} {u x : Uuid} {n : Node}
    (h : lookupNode g.nodes u = some n) (hx : x ∈ n.childs) : x ∈ allIds g :=
  mem_allIds.2 ⟨(u, n), lookupNode_mem h, Or.inr hx⟩

/-! ## `enqueueChilds` -/

theorem enqueueChilds_mem_set {cs : List Uuid} :
    ∀ {q : List Uuid} {s : Finset Uuid} {x : Uuid},
      (x ∈ (enqueueChilds cs q s).2 ↔ x ∈ s ∨ x ∈ cs) := by
  induction cs with
  | nil => simp [enqueueChilds]
  | cons ch rest ih =>
    intro q s x
    rw [enqueueChilds]
    by_cases hch : ch ∈ s
    · rw [if_pos hch, ih]
      constructor
      · rintro (h | h)
        · exact Or.inl h
        · exact Or.inr (List.mem_cons_of_mem _ h)
      · rintro (h | h)
        · exact Or.inl h
        · rcases List.mem_cons.1 h with h | h
          · exact Or.inl (h ▸ hch)
          · exact Or.inr h
    · rw [if_neg hch, ih]
      simp only [Finset.mem_insert, List.mem_cons]
      tauto

theorem enqueueChilds_mem_queue {cs : List Uuid} :
    ∀ {q : List Uuid} {s : Finset Uuid} {x : Uuid},
      (x ∈ (enqueueChilds cs q s).1 ↔ x ∈ q ∨ (x ∈ cs ∧ x ∉ s)) := by
  induction cs with
  | nil => simp [enqueueChilds]
  | cons ch rest ih =>
    intro q s x
    rw [enqueueChilds]
    by_cases hch : ch ∈ s
    · rw [if_pos hch, ih]
      constructor
      · rintro (h | ⟨h1, h2⟩)
        · exact Or.inl h
        · exact Or.inr ⟨List.mem_cons_of_mem _ h1, h2⟩
      · rintro (h | ⟨h1, h2⟩)
        · exact Or.inl h
        · rcases List.mem_cons.1 h1 with h1 | h1
          · exact absurd (h1 ▸ hch) h2
          · exact Or.inr ⟨h1, h2⟩
    · rw [if_neg hch, ih]
      constructor
      · rintro (h | ⟨h1, h2⟩)
        · rcases List.mem_append.1 h with h | h
          · exact Or.inl h
          · have hx : x = ch := by simpa using h
            subst hx
            exact Or.inr ⟨List.mem_cons_self _ _, hch⟩
        · exact Or.inr ⟨List.mem_cons_of_mem _ h1, fun hx => h2 (Finset.mem_insert_of_mem hx)⟩
      · rintro (h | ⟨h1, h2⟩)
        · exact Or.inl (List.mem_append.2 (Or.inl h))
        · by_cases hx : x = ch
          · exact Or.inl (List.mem_append.2 (Or.inr (by simp [hx])))
          · rcases List.mem_cons.1 h1 with h1 | h1
            · exact absurd h1 hx
            · refine Or.inr ⟨h1, fun hx' => ?_⟩
              rcases Finset.mem_insert.1 hx' with h' | h'
              · exact hx h'
              · exact h2 h'

theorem enqueueChilds_queue_subset_set {cs : List Uuid} {q : List Uuid} {s : Finset Uuid}
    (hqs : ∀ y ∈ q, y ∈ s) :
    ∀ y ∈ (enqueueChilds cs q s).1, y ∈ (enqueueChilds cs q s).2 := by
  intro y hy
  rcases enqueueChilds_mem_queue.1 hy with h | ⟨h1, _⟩
  · exact enqueueChilds_mem_set.2 (Or.inl (hqs y h))
  · exact enqueueChilds_mem_set.2 (Or.inr h1)

theorem enqueueChilds_nodup {cs : List Uuid} :
    ∀ {q : List Uuid} {s : Finset Uuid}, q.Nodup → (∀ y ∈ q, y ∈ s) →
      (enqueueChilds cs q s).1.Nodup := by
  induction cs with
  | nil => intro q s h _; exact h
  | cons ch rest ih =>
    intro q s hnd hqs
    rw [enqueueChilds]
    by_cases hch : ch ∈ s
    · rw [if_pos hch]
      exact ih hnd hqs
    · rw [if_neg hch]
      refine ih ?_ ?_
      · rw [List.nodup_append]
        refine ⟨hnd, List.nodup_singleton ch, ?_⟩
        intro y hy hy'
        have hyc : y = ch := by simpa using hy'
        subst hyc
        exact hch (hqs y hy)
      · intro y hy
        rcases List.mem_append.1 hy with hy | hy
        · exact Finset.mem_insert.2 (Or.inr (hqs y hy))
        · simp at hy
          simp [hy]

theorem enqueueChilds_measure {U : Finset Uuid} {cs : List Uuid} :
    ∀ {q : List Uuid} {s : Finset Uuid}, (∀ y ∈ cs, y ∈ U) → s ⊆ U →
      (enqueueChilds cs q s).2 ⊆ U ∧
      (enqueueChilds cs q s).1.length + (U \ (enqueueChilds cs q s).2).card =
        q.length + (U \ s).card := by
  induction cs with
  | nil => intro q s _ hs; exact ⟨hs, rfl⟩
  | cons ch rest ih =>
    intro q s hcs hs
    rw [enqueueChilds]
    by_cases hch : ch ∈ s
    · rw [if_pos hch]
      exact ih (fun y hy => hcs y (List.mem_cons_of_mem _ hy)) hs
    · rw [if_neg hch]
      have hchU : ch ∈ U := hcs ch (by simp)
      have hs' : insert ch s ⊆ U := Finset.insert_subset hchU hs
      obtain ⟨h1, h2⟩ := ih (q := q ++ [ch]) (fun y hy => hcs y (List.mem_cons_of_mem _ hy)) hs'
      refine ⟨h1, ?_⟩
      rw [h2]
      have hsd : U \ insert ch s = (U \ s).erase ch := by
        ext z
        simp only [Finset.mem_sdiff, Finset.mem_insert, Finset.mem_erase]
        tauto
      have hmem : ch ∈ U \ s := Finset.mem_sdiff.2 ⟨hchU, hch⟩
      have hcard : (U \ insert ch s).card = (U \ s).card - 1 := by
        rw [hsd, Finset.card_erase_of_mem hmem]
      have hlen : (q ++ [ch]).length = q.length + 1 := by simp
      have hpos : 0 < (U \ s).card := Finset.card_pos.2 ⟨ch, hmem⟩
      omega

/-! ## Correctness of the breadth-first cycle scan -/

/-- The universe of identifiers the scan can ever enqueue. -/
def bfsUniverse (g : AcyclicGraph) (child : Uuid) : Finset Uuid :=
  insert child (allIds g)

theorem bfsCycle_fuel_sufficient {g : AcyclicGraph} {p c : Uuid} :
    ∀ (fuel : Nat) (q : List Uuid) (s : Finset Uuid),
      (∀ y ∈ q, y ∈ s) → s ⊆ bfsUniverse g c →
      q.length + (bfsUniverse g c \ s).card + 1 ≤ fuel →
      (bfsCycle g p c fuel q s).isSome := by
  intro fuel
  induction fuel with
  | zero => intro q s _ _ h; omega
  | succ fuel ih =>
    intro q s hqs hsU hm
    match q with
    | [] => simp [bfsCycle]
    | current :: rest =>
      rw [bfsCycle]
      by_cases hp : current = p
      · simp [hp]
      · rw [if_neg hp]
        rcases hl : lookupNode g.nodes current with _ | node
        · simp
        · simp only
          have hcsU : ∀ y ∈ node.childs, y ∈ bfsUniverse g c :=
            fun y hy => Finset.mem_insert_of_mem (child_mem_allIds hl hy)
          obtain ⟨h1, h2⟩ := enqueueChilds_measure (q := rest) (s := s) hcsU hsU
          refine ih _ _ ?_ h1 ?_
          · exact enqueueChilds_queue_subset_set (fun y hy => hqs y (List.mem_cons_of_mem _ hy))
          · rw [h2]
            simp at hm
            omega

theorem check_cycle_eq_bfs (g : AcyclicGraph) (p c : Uuid) :
    bfsCycle g p c (cycleFuel g c) [c] {c} = some (g.check_cycle p c) := by
  have hc : c ∈ bfsUniverse g c := Finset.mem_insert_self _ _
  have h := bfsCycle_fuel_sufficient (g := g) (p := p) (c := c) (cycleFuel g c) [c] {c}
    (by simp) (Finset.singleton_subset_iff.2 hc) ?_
  · rcases hr : bfsCycle g p c (cycleFuel g c) [c] {c} with _ | r
    · rw [hr] at h; cases h
    · unfold AcyclicGraph.check_cycle
      rw [hr]
      rfl
  · have : (bfsUniverse g c \ {c}).card = (bfsUniverse g c).card - 1 := by
      rw [Finset.card_sdiff (Finset.singleton_subset_iff.2 hc)]
      simp
    have hpos : 0 < (bfsUniverse g c).card := Finset.card_pos.2 ⟨c, hc⟩
    unfold cycleFuel bfsUniverse at *
    simp only [List.length_singleton]
    omega

theorem bfsCycle_sound {g : AcyclicGraph} {p c : Uuid} :
    ∀ (fuel : Nat) (q : List Uuid) (s : Finset Uuid) (r : Except Error Unit),
      (∀ x ∈ s, Reach g c x) → (∀ y ∈ q, y ∈ s) →
      bfsCycle g p c fuel q s = some r →
      r = .ok () ∨ (r = .error (.Cycle p c) ∧ Reach g c p) ∨
        (∃ u, r = .error (.UuidNotFound u) ∧ Reach g c u ∧
          lookupNode g.nodes u = none ∧ u ≠ p) := by
  intro fuel
  induction fuel with
  | zero => intro q s r _ _ h; cases h
  | succ fuel ih =>
    intro q s r hreach hqs hrun
    match q with
    | [] =>
      rw [bfsCycle] at hrun
      cases hrun
      exact Or.inl rfl
    | current :: rest =>
      rw [bfsCycle] at hrun
      by_cases hp : current = p
      · rw [if_pos hp] at hrun
        cases hrun
        exact Or.inr (Or.inl ⟨rfl, hp ▸ hreach current (hqs current (by simp))⟩)
      · rw [if_neg hp] at hrun
        rcases hl : lookupNode g.nodes current with _ | node
        · rw [hl] at hrun
          cases hrun
          exact Or.inr (Or.inr ⟨current, rfl, hreach current (hqs current (by simp)), hl, hp⟩)
        · rw [hl] at hrun
          refine ih _ _ _ ?_ ?_ hrun
          · intro x hx
            rcases enqueueChilds_mem_set.1 hx with hx | hx
            · exact hreach x hx
            · refine Relation.ReflTransGen.tail (hreach current (hqs current (by simp))) ?_
              exact edgeB_iff.2 ⟨node, hl, hx⟩
          · exact enqueueChilds_queue_subset_set
              (fun y hy => hqs y (List.mem_cons_of_mem _ hy))

theorem bfsCycle_complete {g : AcyclicGraph} {p c : Uuid} :
    ∀ (fuel : Nat) (q : List Uuid) (s : Finset Uuid),
      c ∈ s → (∀ y ∈ q, y ∈ s) → q.Nodup →
      (∀ x ∈ s, x ∉ q → x ≠ p ∧ ∃ node, lookupNode g.nodes x = some node ∧
        ∀ ch ∈ node.childs, ch ∈ s) →
      bfsCycle g p c fuel q s = some (.ok ()) →
      ¬ Reach g c p ∧ c ∈ g.keys := by
  intro fuel
  induction fuel with
  | zero => intro q s _ _ _ _ h; cases h
  | succ fuel ih =>
    intro q s hc hqs hnd hclosed hrun
    match q with
    | [] =>
      have hAll : ∀ x, Reach g c x → x ∈ s := by
        intro x hx
        induction hx with
        | refl => exact hc
        | tail hab hbc ihx =>
          obtain ⟨n, hn, hcs⟩ := edgeB_iff.1 hbc
          obtain ⟨_, n', hn', hsub⟩ := hclosed _ ihx (by simp)
          rw [hn] at hn'
          cases hn'
          exact hsub _ hcs
      constructor
      · intro hreach
        exact (hclosed p (hAll p hreach) (by simp)).1 rfl
      · obtain ⟨_, n, hn, _⟩ := hclosed c hc (by simp)
        exact mem_keys_of_lookup hn
    | current :: rest =>
      rw [bfsCycle] at hrun
      by_cases hp : current = p
      · rw [if_pos hp] at hrun
        cases hrun
      · rw [if_neg hp] at hrun
        rcases hl : lookupNode g.nodes current with _ | node
        · rw [hl] at hrun
          cases hrun
        · rw [hl] at hrun
          have hrest : ∀ y ∈ rest, y ∈ s := fun y hy => hqs y (List.mem_cons_of_mem _ hy)
          refine ih _ _ (enqueueChilds_mem_set.2 (Or.inl hc)) ?_ ?_ ?_ hrun
          · exact enqueueChilds_queue_subset_set hrest
          · exact enqueueChilds_nodup (List.Nodup.of_cons hnd) hrest
          · intro x hx hxq
            have hchs : ∀ ch ∈ node.childs, ch ∈ (enqueueChilds node.childs rest s).2 :=
              fun ch hch => enqueueChilds_mem_set.2 (Or.inr hch)
            by_cases hxc : x = current
            · subst hxc
              exact ⟨hp, node, hl, hchs⟩
            · rcases enqueueChilds_mem_set.1 hx with hxs | hxcs
              · have hxq' : x ∉ (current :: rest) := by
                  intro hmem
                  rcases List.mem_cons.1 hmem with h | h
                  · exact hxc h
                  · exact hxq (enqueueChilds_mem_queue.2 (Or.inl h))
                obtain ⟨h1, n', hn', hsub⟩ := hclosed x hxs hxq'
                exact ⟨h1, n', hn', fun ch hch =>
                  enqueueChilds_mem_set.2 (Or.inl (hsub ch hch))⟩
              · by_cases hxs : x ∈ s
                · have hxq' : x ∉ (current :: rest) := by
                    intro hmem
                    rcases List.mem_cons.1 hmem with h | h
                    · exact hxc h
                    · exact hxq (enqueueChilds_mem_queue.2 (Or.inl h))
                  obtain ⟨h1, n', hn', hsub⟩ := hclosed x hxs hxq'
                  exact ⟨h1, n', hn', fun ch hch =>
                    enqueueChilds_mem_set.2 (Or.inl (hsub ch hch))⟩
                · exact absurd (enqueueChilds_mem_queue.2 (Or.inr ⟨hxcs, hxs⟩)) hxq

/-- Complete characterisation of `check_cycle` on graphs without dangling
edges: a `Cycle` error exactly when `child` reaches `parent` (including
`child = parent`); `Ok` when there is no such path and `child` exists;
`UuidNotFound child` when there is no such path and `child` is absent. -/
theorem check_cycle_spec {g : AcyclicGraph} (hwf : WF g) (p c : Uuid) :
    (g.check_cycle p c = .error (.Cycle p c) ↔ Reach g c p) ∧
    (¬ Reach g c p → c ∈ g.keys → g.check_cycle p c = .ok ()) ∧
    (¬ Reach g c p → c ∉ g.keys → g.check_cycle p c = .error (.UuidNotFound c)) := by
  have hbfs := check_cycle_eq_bfs g p c
  have hsound := bfsCycle_sound (g := g) (p := p) (c := c) (cycleFuel g c) [c] {c}
    (g.check_cycle p c)
    (by intro x hx; simp at hx; subst hx; exact Relation.ReflTransGen.refl)
    (by simp) hbfs
  rcases hsound with hok | ⟨hcyc, hreach⟩ | ⟨u, hnf, hreachu, hlu, hup⟩
  · have hcomp := bfsCycle_complete (g := g) (p := p) (c := c) (cycleFuel g c) [c] {c}
      (by simp) (by simp) (by simp)
      (by intro x hx hxq; simp at hx; simp [hx] at hxq)
      (hok ▸ hbfs)
    refine ⟨⟨fun h => ?_, fun h => absurd h hcomp.1⟩, fun _ _ => hok, fun _ hk =>
      absurd hcomp.2 hk⟩
    rw [hok] at h
    cases h
  · refine ⟨⟨fun _ => hreach, fun _ => hcyc⟩, fun h _ => absurd hreach h,
      fun h _ => absurd hreach h⟩
  · have huc : u = c := by
      by_contra hne
      exact (lookupNode_eq_none.1 hlu)
        (reach_target_mem_keys hwf hreachu hne)
    subst huc
    have hcnk : u ∉ g.keys := lookupNode_eq_none.1 hlu
    have hnreach : ¬ Reach g u p := by
      intro hr
      rcases Relation.ReflTransGen.cases_head hr with h | ⟨z, hz, _⟩
      · exact hup h
      · obtain ⟨n, hn, _⟩ := edgeB_iff.1 hz
        rw [hlu] at hn
        cases hn
    refine ⟨⟨fun h => ?_, fun h => absurd h hnreach⟩, fun _ hk => absurd hk hcnk,
      fun _ _ => hnf⟩
    rw [hnf] at h
    injection h with h
    cases h

/-! ## `insertChild` and `add_node_uuid` -/

theorem lookupNode_insertChildList {l : List (Uuid × Node)} {p c : Uuid} :
    ∀ {u : Uuid}, lookupNode (insertChildList l p c) u =
      if u = p then (lookupNode l p).map (fun n => { n with childs := c :: n.childs })
      else lookupNode l u := by
  induction l with
  | nil => intro u; by_cases h : u = p <;> simp [insertChildList, h]
  | cons e es ih =>
    intro u
    rw [insertChildList]
    by_cases hep : e.1 = p
    · rw [if_pos hep]
      by_cases hu : e.1 = u
      · have hup : u = p := hu.symm.trans hep
        simp only [lookupNode_cons]
        simp [hu, hup, hep]
      · have hup : ¬ u = p := fun h => hu (hep.trans h.symm)
        simp only [lookupNode_cons]
        simp [hu, hup]
    · rw [if_neg hep]
      by_cases hu : e.1 = u
      · have hup : ¬ u = p := fun h => hep (hu.trans h)
        simp only [lookupNode_cons]
        simp [hu, hup]
      · simp only [lookupNode_cons]
        rw [if_neg hu, if_neg hu, ih]
        by_cases hup : u = p
        · rw [if_pos hup, if_pos hup, if_neg hep]
        · rw [if_neg hup, if_neg hup]

theorem keys_insertChild (g : AcyclicGraph) (p c : Uuid) :
    (g.insertChild p c).keys = g.keys := by
  show (insertChildList g.nodes p c).map Prod.fst = g.nodes.map Prod.fst
  induction g.nodes with
  | nil => rfl
  | cons e es ih =>
    rw [insertChildList]
    by_cases hep : e.1 = p
    · rw [if_pos hep]
      simp
    · rw [if_neg hep]
      simpa using ih

theorem edgeB_insertChild {g : AcyclicGraph} {p c a b : Uuid} :
    edgeB (g.insertChild p c) a b = true ↔
      edgeB g a b = true ∨ (a = p ∧ b = c ∧ p ∈ g.keys) := by
  unfold edgeB AcyclicGraph.insertChild
  rw [show ({ g with nodes := insertChildList g.nodes p c } : AcyclicGraph).nodes =
    insertChildList g.nodes p c from rfl, lookupNode_insertChildList]
  by_cases hap : a = p
  · subst hap
    rw [if_pos rfl]
    rcases hl : lookupNode g.nodes a with _ | n
    · simp only [Option.map_none]
      have : a ∉ g.keys := lookupNode_eq_none.1 hl
      simp
      exact fun _ h => absurd h this
    · simp only [Option.map_some]
      have hmem : a ∈ g.keys := mem_keys_of_lookup hl
      show (c :: n.childs).contains b = true ↔ _
      rw [List.elem_iff]
      simp only [List.mem_cons, List.elem_iff, hmem, and_true, true_and]
      tauto
  · rw [if_neg hap]
    simp [hap]

theorem reach_mono_insertChild {g : AcyclicGraph} {p c a b : Uuid}
    (h : Reach g a b) : Reach (g.insertChild p c) a b := by
  induction h with
  | refl => exact Relation.ReflTransGen.refl
  | tail _ hedge ih =>
    exact Relation.ReflTransGen.tail ih (edgeB_insertChild.2 (Or.inl hedge))

theorem reach_insertChild_cases {g : AcyclicGraph} {p c a b : Uuid}
    (h : Reach (g.insertChild p c) a b) :
    Reach g a b ∨ (Reach g a p ∧ Reach g c b) := by
  induction h with
  | refl => exact Or.inl Relation.ReflTransGen.refl
  | tail _ hedge ih =>
    rcases edgeB_insertChild.1 hedge with hold | ⟨hy, hb, _⟩
    · rcases ih with ih | ⟨ih1, ih2⟩
      · exact Or.inl (Relation.ReflTransGen.tail ih hold)
      · exact Or.inr ⟨ih1, Relation.ReflTransGen.tail ih2 hold⟩
    · subst hy hb
      rcases ih with ih | ⟨ih1, _⟩
      · exact Or.inr ⟨ih, Relation.ReflTransGen.refl⟩
      · exact Or.inr ⟨ih1, Relation.ReflTransGen.refl⟩

theorem acyclic_insertChild {g : AcyclicGraph} {p c : Uuid} (hac : Acyclic g)
    (hnr : ¬ Reach g c p) : Acyclic (g.insertChild p c) := by
  intro a b hedge hreach
  rcases reach_insertChild_cases hreach with hr | ⟨hr1, hr2⟩
  · rcases edgeB_insertChild.1 hedge with hold | ⟨ha, hb, _⟩
    · exact hac a b hold hr
    · subst ha hb
      exact hnr hr
  · rcases edgeB_insertChild.1 hedge with hold | ⟨ha, hb, _⟩
    · exact hnr (hr2.tail hold |>.trans hr1)
    · subst ha hb
      exact hnr hr2

theorem mem_insertChildList {l : List (Uuid × Node)} {p c : Uuid} :
    ∀ {e' : Uuid × Node}, e' ∈ insertChildList l p c →
      e' ∈ l ∨ ∃ n, lookupNode l p = some n ∧
        e' = (p, { n with childs := c :: n.childs }) := by
  induction l with
  | nil => intro e' h; simp [insertChildList] at h
  | cons e es ih =>
    intro e' h
    rw [insertChildList] at h
    by_cases hep : e.1 = p
    · rw [if_pos hep] at h
      rcases List.mem_cons.1 h with h | h
      · subst hep
        exact Or.inr ⟨e.2, by rw [lookupNode_cons, if_pos rfl], h⟩
      · exact Or.inl (List.mem_cons_of_mem _ h)
    · rw [if_neg hep] at h
      rcases List.mem_cons.1 h with h | h
      · exact Or.inl (h ▸ List.mem_cons_self _ _)
      · rcases ih h with h | ⟨n, hn, he⟩
        · exact Or.inl (List.mem_cons_of_mem _ h)
        · exact Or.inr ⟨n, by rw [lookupNode_cons, if_neg hep]; exact hn, he⟩

theorem wf_insertChild {g : AcyclicGraph} {p c : Uuid} (hwf : WF g)
    (hc : c ∈ g.keys) : WF (g.insertChild p c) := by
  intro e' he' x hx
  rw [keys_insertChild]
  rcases mem_insertChildList he' with h | ⟨n, hn, he⟩
  · exact hwf e' h x hx
  · subst he
    simp only at hx
    rcases List.mem_cons.1 hx with hx | hx
    · exact hx ▸ hc
    · exact hwf (p, n) (lookupNode_mem hn) x hx

theorem childsNodup_insertChild {g : AcyclicGraph} {p c : Uuid} {node : Node}
    (hcn : ChildsNodup g) (hl : lookupNode g.nodes p = some node)
    (hnotin : c ∉ node.childs) : ChildsNodup (g.insertChild p c) := by
  intro e' he'
  rcases mem_insertChildList he' with h | ⟨n, hn, he⟩
  · exact hcn e' h
  · subst he
    rw [hl] at hn
    injection hn with hn
    subst hn
    exact List.Nodup.cons hnotin (hcn (p, node) (lookupNode_mem hl))

theorem keysNodup_insertChild {g : AcyclicGraph} {p c : Uuid} (hnd : KeysNodup g) :
    KeysNodup (g.insertChild p c) := by
  unfold KeysNodup
  rw [keys_insertChild]
  exact hnd

theorem lookupNode_addNode {g : AcyclicGraph} {u : Uuid} {name : Option String}
    {data : NodeData} {g' : AcyclicGraph}
    (h : g.add_node_uuid u name data = some g') :
    lookupNode g.nodes u = none ∧
      g' = { g with nodes := (u, ⟨name, data, []⟩) :: g.nodes } := by
  unfold AcyclicGraph.add_node_uuid at h
  rcases hl : lookupNode g.nodes u with _ | n
  · rw [hl] at h
    injection h with h
    exact ⟨rfl, h.symm⟩
  · rw [hl] at h
    cases h

theorem edgeB_addNode {g : AcyclicGraph} {u : Uuid} {name : Option String}
    {data : NodeData} {a b : Uuid} :
    edgeB { g with nodes := (u, ⟨name, data, []⟩) :: g.nodes } a b = true ↔
      a ≠ u ∧ edgeB g a b = true := by
  unfold edgeB
  show (match lookupNode ((u, ⟨name, data, []⟩) :: g.nodes) a with
    | some n => n.childs.contains b | none => false) = true ↔ _
  rw [lookupNode_cons]
  by_cases hau : (u, (⟨name, data, []⟩ : Node)).1 = a
  · simp only [if_pos hau]
    simp only at hau
    subst hau
    simp [List.contains]
  · rw [if_neg hau]
    simp only at hau
    have : a ≠ u := fun h => hau h.symm
    simp [this]

theorem reach_addNode_cases {g : AcyclicGraph} {u : Uuid} {name : Option String}
    {data : NodeData} {a b : Uuid}
    (h : Reach { g with nodes := (u, ⟨name, data, []⟩) :: g.nodes } a b) :
    Reach g a b := by
  induction h with
  | refl => exact Relation.ReflTransGen.refl
  | tail _ hedge ih => exact Relation.ReflTransGen.tail ih (edgeB_addNode.1 hedge).2

theorem wf_addNode {g : AcyclicGraph} {u : Uuid} {name : Option String} {data : NodeData}
    (hwf : WF g) : WF { g with nodes := (u, ⟨name, data, []⟩) :: g.nodes } := by
  intro e' he' x hx
  show x ∈ (((u, (⟨name, data, []⟩ : Node)) :: g.nodes).map Prod.fst)
  rcases List.mem_cons.1 he' with h | h
  · subst h
    simp at hx
  · exact List.mem_map.1 (hwf e' h x hx) |>.elim
      (fun e'' he'' => by
        simp only [List.map_cons, List.mem_cons]
        exact Or.inr (he''.2 ▸ List.mem_map.2 ⟨e'', he''.1, rfl⟩))

theorem acyclic_addNode {g : AcyclicGraph} {u : Uuid} {name : Option String}
    {data : NodeData} (hac : Acyclic g) :
    Acyclic { g with nodes := (u, ⟨name, data, []⟩) :: g.nodes } := by
  intro a b hedge hreach
  exact hac a b (edgeB_addNode.1 hedge).2 (reach_addNode_cases hreach)

theorem keysNodup_addNode {g : AcyclicGraph} {u : Uuid} {name : Option String}
    {data : NodeData} (hnd : KeysNodup g) (hl : lookupNode g.nodes u = none) :
    KeysNodup { g with nodes := (u, ⟨name, data, []⟩) :: g.nodes } := by
  show (((u, (⟨name, data, []⟩ : Node)) :: g.nodes).map Prod.fst).Nodup
  simp only [List.map_cons]
  exact List.Nodup.cons (lookupNode_eq_none.1 hl) hnd

theorem childsNodup_addNode {g : AcyclicGraph} {u : Uuid} {name : Option String}
    {data : NodeData} (hcn : ChildsNodup g) :
    ChildsNodup { g with nodes := (u, ⟨name, data, []⟩) :: g.nodes } := by
  intro e' he'
  rcases List.mem_cons.1 he' with h | h
  · subst h
    exact List.nodup_nil
  · exact hcn e' h

/-! ## `add_child` characterisation -/

/-- Exhaustive case analysis of `add_child`, following the source's control
flow: cycle scan, then parent lookup, then the duplicate-edge check. -/
theorem add_child_eq (g : AcyclicGraph) (p c : Uuid) :
    (∃ e, g.check_cycle p c = .error e ∧ g.add_child p c = (.error e, g)) ∨
    (g.check_cycle p c = .ok () ∧ lookupNode g.nodes p = none ∧
      g.add_child p c = (.error (.UuidNotFound p), g)) ∨
    (∃ node, g.check_cycle p c = .ok () ∧ lookupNode g.nodes p = some node ∧
      c ∈ node.childs ∧ g.add_child p c = (.error (.ChildAlreadyExist p c), g)) ∨
    (∃ node, g.check_cycle p c = .ok () ∧ lookupNode g.nodes p = some node ∧
      c ∉ node.childs ∧ g.add_child p c = (.ok (), g.insertChild p c)) := by
  unfold AcyclicGraph.add_child
  rcases hcc : g.check_cycle p c with e | u
  · exact Or.inl ⟨e, rfl, rfl⟩
  · rcases hl : lookupNode g.nodes p with _ | node
    · exact Or.inr (Or.inl ⟨rfl, rfl, rfl⟩)
    · by_cases hc : node.childs.contains c = true
      · refine Or.inr (Or.inr (Or.inl ⟨node, rfl, rfl, List.elem_iff.1 hc, ?_⟩))
        exact if_pos hc
      · refine Or.inr (Or.inr (Or.inr ⟨node, rfl, rfl, fun hm => hc (List.elem_iff.2 hm), ?_⟩))
        exact if_neg hc

theorem add_child_snd_of_error {g : AcyclicGraph} {p c : Uuid} {e : Error}
    (h : (g.add_child p c).1 = .error e) : (g.add_child p c).2 = g := by
  rcases add_child_eq g p c with ⟨e', _, heq⟩ | ⟨_, _, heq⟩ | ⟨node, _, _, _, heq⟩ |
    ⟨node, _, _, _, heq⟩
  · rw [heq]
  · rw [heq]
  · rw [heq]
  · rw [heq] at h
    cases h

theorem add_child_ok_elim {g : AcyclicGraph} (hwf : WF g) {p c : Uuid}
    (h : (g.add_child p c).1 = .ok ()) :
    ¬ Reach g c p ∧ c ∈ g.keys ∧
      ∃ node, lookupNode g.nodes p = some node ∧ c ∉ node.childs ∧
        (g.add_child p c).2 = g.insertChild p c := by
  obtain ⟨hiff, _, hnf⟩ := check_cycle_spec hwf p c
  rcases add_child_eq g p c with ⟨e', _, heq⟩ | ⟨_, _, heq⟩ | ⟨node, _, _, _, heq⟩ |
    ⟨node, hcc, hl, hnm, heq⟩
  · rw [heq] at h
    cases h
  · rw [heq] at h
    cases h
  · rw [heq] at h
    cases h
  · have hnr : ¬ Reach g c p := fun hr => by
      rw [hiff.2 hr] at hcc
      cases hcc
    have hck : c ∈ g.keys := by
      by_contra hk
      rw [hnf hnr hk] at hcc
      cases hcc
    exact ⟨hnr, hck, node, hl, hnm, by rw [heq]⟩

theorem add_child_success {g : AcyclicGraph} (hwf : WF g) {p c : Uuid} {node : Node}
    (hnr : ¬ Reach g c p) (hck : c ∈ g.keys)
    (hl : lookupNode g.nodes p = some node) (hnm : c ∉ node.childs) :
    g.add_child p c = (.ok (), g.insertChild p c) := by
  obtain ⟨_, hok, _⟩ := check_cycle_spec hwf p c
  rcases add_child_eq g p c with ⟨e', hcc, heq⟩ | ⟨_, hl', heq⟩ | ⟨node', _, hl', hm, heq⟩ |
    ⟨node', _, hl', _, heq⟩
  · rw [hok hnr hck] at hcc
    cases hcc
  · rw [hl] at hl'
    cases hl'
  · rw [hl] at hl'
    injection hl' with hl'
    exact absurd (hl' ▸ hm) hnm
  · exact heq

theorem add_child_cycle_iff {g : AcyclicGraph} (hwf : WF g) (p c : Uuid) :
    (g.add_child p c).1 = .error (.Cycle p c) ↔ Reach g c p := by
  obtain ⟨hiff, _, _⟩ := check_cycle_spec hwf p c
  rcases add_child_eq g p c with ⟨e', hcc, heq⟩ | ⟨hcc, _, heq⟩ | ⟨node, hcc, _, _, heq⟩ |
    ⟨node, hcc, _, _, heq⟩
  · rw [heq]
    constructor
    · intro h
      simp only at h
      injection h with h
      exact hiff.1 (h ▸ hcc)
    · intro hr
      have h2 := hiff.2 hr
      rw [hcc] at h2
      injection h2 with h2
      simp [h2]
  · rw [heq]
    constructor
    · intro h
      injection h with h
      cases h
    · intro hr
      rw [hiff.2 hr] at hcc
      cases hcc
  · rw [heq]
    constructor
    · intro h
      injection h with h
      cases h
    · intro hr
      rw [hiff.2 hr] at hcc
      cases hcc
  · rw [heq]
    constructor
    · intro h
      cases h
    · intro hr
      rw [hiff.2 hr] at hcc
      cases hcc

/-! ## The store invariant and its preservation (claim C2) -/

/-- The conjunction of store invariants maintained by every operation. -/
structure StoreInv (g : AcyclicGraph) : Prop where
  wf : WF g
  acyclic : Acyclic g
  keysNodup : KeysNodup g
  childsNodup : ChildsNodup g

theorem storeInv_new (name : String) : StoreInv (AcyclicGraph.new name) := by
  refine ⟨?_, ?_, ?_, ?_⟩
  · intro e he
    simp [AcyclicGraph.new] at he
  · intro a b hedge
    simp [edgeB, AcyclicGraph.new, lookupNode] at hedge
  · simp [KeysNodup, AcyclicGraph.new, AcyclicGraph.keys]
  · intro e he
    simp [AcyclicGraph.new] at he

theorem storeInv_addNode {g g' : AcyclicGraph} {u : Uuid} {name : Option String}
    {data : NodeData} (hinv : StoreInv g) (h : g.add_node_uuid u name data = some g') :
    StoreInv g' := by
  obtain ⟨hl, hg⟩ := lookupNode_addNode h
  subst hg
  exact ⟨wf_addNode hinv.wf, acyclic_addNode hinv.acyclic,
    keysNodup_addNode hinv.keysNodup hl, childsNodup_addNode hinv.childsNodup⟩

theorem storeInv_addChild {g : AcyclicGraph} {p c : Uuid} (hinv : StoreInv g) :
    StoreInv (g.add_child p c).2 := by
  rcases hr : (g.add_child p c).1 with e | u
  · rw [add_child_snd_of_error hr]
    exact hinv
  · obtain ⟨hnr, hck, node, hl, hnm, hsnd⟩ := add_child_ok_elim hinv.wf hr
    rw [hsnd]
    exact ⟨wf_insertChild hinv.wf hck, acyclic_insertChild hinv.acyclic hnr,
      keysNodup_insertChild hinv.keysNodup,
      childsNodup_insertChild hinv.childsNodup hl hnm⟩

theorem storeInv_runOps {ops : List Op} :
    ∀ {g g' : AcyclicGraph}, StoreInv g → runOps g ops = some g' → StoreInv g' := by
  induction ops with
  | nil =>
    intro g g' hinv h
    rw [runOps] at h
    injection h with h
    exact h ▸ hinv
  | cons op ops ih =>
    intro g g' hinv h
    rw [runOps] at h
    rcases hop : applyOp g op with _ | g1
    · rw [hop] at h
      cases h
    · rw [hop] at h
      refine ih ?_ h
      match op, hop with
      | .addNode u name data, hop => exact storeInv_addNode hinv hop
      | .addChild p c, hop =>
        rw [applyOp] at hop
        injection hop with hop
        exact hop ▸ storeInv_addChild hinv

/-! ## Further `add_child` error-path lemmas (claims C8, C10) -/

theorem check_cycle_child_absent {g : AcyclicGraph} {p c : Uuid}
    (hc : c ∉ g.keys) (hne : c ≠ p) :
    g.check_cycle p c = .error (.UuidNotFound c) := by
  have h1 : lookupNode g.nodes c = none := lookupNode_eq_none.2 hc
  unfold AcyclicGraph.check_cycle cycleFuel
  rw [bfsCycle, if_neg hne, h1]
  rfl

theorem add_child_child_absent {g : AcyclicGraph} {p c : Uuid}
    (hc : c ∉ g.keys) (hne : c ≠ p) :
    g.add_child p c = (.error (.UuidNotFound c), g) := by
  rcases add_child_eq g p c with ⟨e', hcc, heq⟩ | ⟨hcc, _, _⟩ | ⟨node, hcc, _, _, _⟩ |
    ⟨node, hcc, _, _, _⟩
  · rw [check_cycle_child_absent hc hne] at hcc
    injection hcc with hcc
    rw [heq, hcc]
  · rw [check_cycle_child_absent hc hne] at hcc
    cases hcc
  · rw [check_cycle_child_absent hc hne] at hcc
    cases hcc
  · rw [check_cycle_child_absent hc hne] at hcc
    cases hcc

theorem add_child_parent_absent {g : AcyclicGraph} (hwf : WF g) {p c : Uuid}
    (hck : c ∈ g.keys) (hnr : ¬ Reach g c p) (hp : p ∉ g.keys) :
    g.add_child p c = (.error (.UuidNotFound p), g) := by
  obtain ⟨_, hok, _⟩ := check_cycle_spec hwf p c
  rcases add_child_eq g p c with ⟨e', hcc, _⟩ | ⟨_, _, heq⟩ | ⟨node, _, hl, _, _⟩ |
    ⟨node, _, hl, _, _⟩
  · rw [hok hnr hck] at hcc
    cases hcc
  · exact heq
  · exact absurd (mem_keys_of_lookup hl) hp
  · exact absurd (mem_keys_of_lookup hl) hp

theorem add_child_duplicate {g : AcyclicGraph} (hwf : WF g) {p c : Uuid} {node : Node}
    (hnr : ¬ Reach g c p) (hck : c ∈ g.keys)
    (hl : lookupNode g.nodes p = some node) (hm : c ∈ node.childs) :
    g.add_child p c = (.error (.ChildAlreadyExist p c), g) := by
  obtain ⟨_, hok, _⟩ := check_cycle_spec hwf p c
  rcases add_child_eq g p c with ⟨e', hcc, _⟩ | ⟨_, hl', _⟩ | ⟨node', _, hl', hm', heq⟩ |
    ⟨node', _, hl', hm', _⟩
  · rw [hok hnr hck] at hcc
    cases hcc
  · rw [hl] at hl'
    cases hl'
  · exact heq
  · rw [hl] at hl'
    injection hl' with hl'
    exact absurd (hl' ▸ hm) hm'

/-! ## Claim theorems: C1, C2, C8, C10 -/

/-- Claim C1.  For every well-formed graph state and every pair `(parent, child)`,
`add_child` fails with the `Cycle` error if and only if `child` can already
reach `parent` via zero or more existing `childs` edges (`Reach` is reflexive,
so this includes the self-loop case `child = parent`); and on every rejection
(any `Error` value: `Cycle`, `UuidNotFound`, `ChildAlreadyExist`) the returned
graph is exactly the input graph — no node or edge mutated. -/
theorem C1_cycle_iff_and_unchanged_on_rejection {g : AcyclicGraph} (hwf : WF g)
    (p c : Uuid) :
    ((g.add_child p c).1 = .error (.Cycle p c) ↔ Reach g c p) ∧
    (∀ e : Error, (g.add_child p c).1 = .error e → (g.add_child p c).2 = g) :=
  ⟨add_child_cycle_iff hwf p c, fun _ h => add_child_snd_of_error h⟩

/-- Two-node graph with the single edge `0 → 1`. -/
def gEdge : AcyclicGraph :=
  ⟨"g", [(0, ⟨some "P", .None, [1]⟩), (1, ⟨some "C", .None, []⟩)]⟩

/-- Witness for C1 at the concrete graph `gEdge`: adding `1 → 0` closes a
cycle and is rejected with the graph unchanged. -/
theorem C1_witness :
    ((gEdge.add_child 1 0).1 = .error (.Cycle 1 0) ↔ Reach gEdge 0 1) ∧
    (∀ e : Error, (gEdge.add_child 1 0).1 = .error e → (gEdge.add_child 1 0).2 = gEdge) :=
  C1_cycle_iff_and_unchanged_on_rejection (by decide) 1 0

/-- Claim C2.  For every sequence of node-creation and `add_child` operations
run from an empty store, every state the run reaches satisfies the two graph
invariants: no dangling edges (`WF`) and acyclicity.  (Applying the theorem to
a prefix of the sequence gives the invariant after each individual
operation.) -/
theorem C2_invariants_hold (name : String) (ops : List Op) (g : AcyclicGraph)
    (h : runOps (AcyclicGraph.new name) ops = some g) : WF g ∧ Acyclic g :=
  have hinv := storeInv_runOps (storeInv_new name) h
  ⟨hinv.wf, hinv.acyclic⟩

/-- A concrete operation sequence: two nodes, one accepted edge, one rejected
cycle-closing edge, one rejected duplicate edge. -/
def opsC2 : List Op :=
  [.addNode 0 (some "P") .None, .addNode 1 (some "C") .None,
   .addChild 0 1, .addChild 1 0, .addChild 0 1]

/-- Witness for C2: running `opsC2` from the empty store succeeds and the
resulting graph satisfies both invariants. -/
theorem C2_witness :
    ∃ g, runOps (AcyclicGraph.new "w") opsC2 = some g ∧ WF g ∧ Acyclic g := by
  refine ⟨(runOps (AcyclicGraph.new "w") opsC2).get (by decide), ?_, ?_⟩
  · decide
  · exact C2_invariants_hold "w" opsC2 _ (by decide)

/-- Claim C8, counterexample.  The claim quantifies over every graph in which
`parent` and `child` are both present and there is no path from `child` to
`parent`, and asserts that a first `add_child(parent, child)` call succeeds.
On `gEdge` (which already contains the edge `0 → 1`) all those hypotheses
hold, yet the call is rejected with `ChildAlreadyExist`, not a success. -/
theorem C8_counterexample :
    0 ∈ gEdge.keys ∧ 1 ∈ gEdge.keys ∧ ¬ Reach gEdge 1 0 ∧
    (gEdge.add_child 0 1).1 = .error (.ChildAlreadyExist 0 1) := by
  refine ⟨by decide, by decide, ?_, by decide⟩
  intro hr
  have h10 : (0 : Uuid) = 1 :=
    reach_of_childs_nil (g := gEdge) (a := 1) (n := ⟨some "C", .None, []⟩) rfl rfl hr
  cases h10

/-- Claim C8, amended.  For every well-formed graph in which `parent` and `child`
are present, there is no path from `child` to `parent`, *and the edge does not
exist yet*: a first `add_child` succeeds; the identical second call fails with
`ChildAlreadyExist` and leaves the state exactly as it was after the first
call; and (the priority clause, stated for all well-formed states) whenever
the cycle condition holds, `add_child` reports `Cycle` — so cycle detection
dominates the duplicate check whenever both could apply. -/
theorem C8_amended_idempotent_rejection {g : AcyclicGraph} (hwf : WF g)
    {p c : Uuid} {node : Node}
    (hl : lookupNode g.nodes p = some node) (hck : c ∈ g.keys)
    (hnr : ¬ Reach g c p) (hnm : c ∉ node.childs) :
    g.add_child p c = (.ok (), g.insertChild p c) ∧
    (g.insertChild p c).add_child p c =
      (.error (.ChildAlreadyExist p c), g.insertChild p c) ∧
    (∀ g₀ : AcyclicGraph, ∀ p₀ c₀ : Uuid, WF g₀ → Reach g₀ c₀ p₀ →
      (g₀.add_child p₀ c₀).1 = .error (.Cycle p₀ c₀)) := by
  have hfirst := add_child_success hwf hnr hck hl hnm
  refine ⟨hfirst, ?_, fun g₀ p₀ c₀ hwf₀ hr₀ => (add_child_cycle_iff hwf₀ p₀ c₀).2 hr₀⟩
  have hwf' : WF (g.insertChild p c) := wf_insertChild hwf hck
  have hnr' : ¬ Reach (g.insertChild p c) c p := by
    intro hr
    rcases reach_insertChild_cases hr with hr | ⟨hr1, _⟩
    · exact hnr hr
    · exact hnr hr1
  have hck' : c ∈ (g.insertChild p c).keys := by
    rw [keys_insertChild]
    exact hck
  have hl' : lookupNode (g.insertChild p c).nodes p =
      some { node with childs := c :: node.childs } := by
    show lookupNode (insertChildList g.nodes p c) p = _
    rw [lookupNode_insertChildList, if_pos rfl, hl]
    rfl
  exact add_child_duplicate hwf' hnr' hck' hl' (List.mem_cons_self _ _)

/-- Two isolated nodes `0` and `1`, no edges. -/
def gTwoNodes : AcyclicGraph :=
  ⟨"g", [(0, ⟨some "P", .None, []⟩), (1, ⟨some "C", .None, []⟩)]⟩

/-- Witness for the amended C8 on `gTwoNodes`: first `add_child 0 1` succeeds,
the repeated call fails with `ChildAlreadyExist` leaving the state unchanged. -/
theorem C8_witness :
    gTwoNodes.add_child 0 1 = (.ok (), gTwoNodes.insertChild 0 1) ∧
    (gTwoNodes.insertChild 0 1).add_child 0 1 =
      (.error (.ChildAlreadyExist 0 1), gTwoNodes.insertChild 0 1) ∧
    (∀ g₀ : AcyclicGraph, ∀ p₀ c₀ : Uuid, WF g₀ → Reach g₀ c₀ p₀ →
      (g₀.add_child p₀ c₀).1 = .error (.Cycle p₀ c₀)) := by
  refine C8_amended_idempotent_rejection (by decide) rfl (by decide) ?_ (by decide)
  intro hr
  have h01 : (0 : Uuid) = 1 :=
    reach_of_childs_nil (g := gTwoNodes) (a := 1) (n := ⟨some "C", .None, []⟩) rfl rfl hr
  cases h01

/-- Claim C10, counterexample.  The claim asserts that whenever the child
identifier is absent from the store, `add_child` fails with `UuidNotFound`
carrying the child.  At the concrete input `parent = child = 5` on the empty
store, the identifier `5` is absent, yet the very first loop iteration of the
cycle scan compares the popped id against `parent` *before* looking it up, so
the call fails with `Cycle 5 5` instead. -/
theorem C10_counterexample :
    5 ∉ (AcyclicGraph.new "g").keys ∧
    ((AcyclicGraph.new "g").add_child 5 5).1 = .error (.Cycle 5 5) := by
  constructor
  · decide
  · decide

/-- Claim C10, amended.  `add_child` checks the child's existence before the
parent's, *except* in the self-loop case `child = parent`, where the equality
test fires first and reports `Cycle`.  Precisely: if `child` is absent and
`child ≠ parent`, the call fails with `UuidNotFound child` even when `parent`
is also absent; and when `child` is present, no cycle is found and `parent` is
absent, the call fails with `UuidNotFound parent`. -/
theorem C10_amended_child_checked_first {g : AcyclicGraph} (p c : Uuid) :
    (c ∉ g.keys → c ≠ p → g.add_child p c = (.error (.UuidNotFound c), g)) ∧
    (WF g → c ∈ g.keys → ¬ Reach g c p → p ∉ g.keys →
      g.add_child p c = (.error (.UuidNotFound p), g)) :=
  ⟨fun hc hne => add_child_child_absent hc hne,
   fun hwf hck hnr hp => add_child_parent_absent hwf hck hnr hp⟩

/-- Single node `0`, no edges. -/
def gOneNode : AcyclicGraph := ⟨"g", [(0, ⟨some "R", .None, []⟩)]⟩

/-- Witness for the amended C10 on `gOneNode`: absent child `5` with absent
parent `7` reports the child; present child `0` with absent parent `7`
reports the parent. -/
theorem C10_witness :
    gOneNode.add_child 7 5 = (.error (.UuidNotFound 5), gOneNode) ∧
    gOneNode.add_child 7 0 = (.error (.UuidNotFound 7), gOneNode) := by
  constructor
  · exact (C10_amended_child_checked_first 7 5).1 (by decide) (by decide)
  · refine (C10_amended_child_checked_first 7 0).2 (by decide) (by decide) ?_ (by decide)
    intro hr
    have h70 : (7 : Uuid) = 0 :=
      reach_of_childs_nil (g := gOneNode) (a := 0) (n := ⟨some "R", .None, []⟩) rfl rfl hr
    cases h70

/-! ## Roots and the parent index -/

theorem lookup_of_mem_nodup {l : List (Uuid × Node)} (hnd : (l.map Prod.fst).Nodup)
    {a : Uuid} {n : Node} (h : (a, n) ∈ l) : lookupNode l a = some n := by
  induction l with
  | nil => cases h
  | cons e es ih =>
    rw [lookupNode_cons]
    rcases List.mem_cons.1 h with he | he
    · rw [if_pos (by rw [← he])]
      rw [← he]
    · have hne : e.1 ≠ a := by
        intro hea
        have : a ∈ es.map Prod.fst := List.mem_map.2 ⟨(a, n), he, rfl⟩
        simp only [List.map_cons, List.nodup_cons] at hnd
        exact hnd.1 (hea ▸ this)
      rw [if_neg hne]
      exact ih (by simp only [List.map_cons, List.nodup_cons] at hnd; exact hnd.2) he

theorem mem_parentsOf {g : AcyclicGraph} (hnd : KeysNodup g) {a u : Uuid} :
    a ∈ parentsOf g u ↔ edgeB g a u = true := by
  unfold parentsOf
  rw [List.mem_map]
  constructor
  · rintro ⟨e, he, rfl⟩
    rw [List.mem_filter] at he
    have hl : lookupNode g.nodes e.1 = some e.2 := lookup_of_mem_nodup hnd he.1
    exact edgeB_iff.2 ⟨e.2, hl, by simpa using he.2⟩
  · intro h
    obtain ⟨n, hl, hm⟩ := edgeB_iff.1 h
    exact ⟨(a, n), List.mem_filter.2 ⟨lookupNode_mem hl, by simpa using hm⟩, rfl⟩

theorem parentsOf_eq_nil {g : AcyclicGraph} {u : Uuid} :
    parentsOf g u = [] ↔ ∀ e ∈ g.nodes, u ∉ e.2.childs := by
  unfold parentsOf
  simp [List.filter_eq_nil_iff]

theorem parentsOf_eq_nil_iff_no_edge {g : AcyclicGraph} (hnd : KeysNodup g) {u : Uuid} :
    parentsOf g u = [] ↔ ∀ a, edgeB g a u ≠ true := by
  constructor
  · intro h a ha
    have : a ∈ parentsOf g u := (mem_parentsOf hnd).2 ha
    rw [h] at this
    cases this
  · intro h
    rcases hp : parentsOf g u with _ | ⟨a, rest⟩
    · rfl
    · have : a ∈ parentsOf g u := by rw [hp]; exact List.mem_cons_self _ _
      exact absurd ((mem_parentsOf hnd).1 this) (h a)

theorem mem_rootsList {g : AcyclicGraph} {u : Uuid} :
    u ∈ rootsList g ↔ u ∈ g.keys ∧ parentsOf g u = [] := by
  unfold rootsList
  rw [List.mem_filter]
  simp

theorem rootsList_nodup {g : AcyclicGraph} (hnd : KeysNodup g) : (rootsList g).Nodup :=
  List.Nodup.filter _ hnd

theorem nodup_eq_singleton {α : Type} {l : List α} {a : α} (hnd : l.Nodup)
    (h : ∀ x, x ∈ l ↔ x = a) : l = [a] := by
  match l, hnd with
  | [], _ => exact absurd ((h a).2 rfl) (by simp)
  | [b], _ => rw [(h b).1 (by simp)]
  | b :: c :: t, hnd =>
    have hb : b = a := (h b).1 (by simp)
    have hc : c = a := (h c).1 (by simp)
    rw [List.nodup_cons] at hnd
    exact absurd (by simp [hb ▸ hc.symm]) hnd.1

theorem rootsList_eq_singleton {g : AcyclicGraph} (hnd : KeysNodup g) {r : Uuid}
    (hrk : r ∈ g.keys) (hrp : parentsOf g r = [])
    (hothers : ∀ u ∈ g.keys, u ≠ r → parentsOf g u ≠ []) :
    rootsList g = [r] := by
  refine nodup_eq_singleton (rootsList_nodup hnd) (fun x => ?_)
  rw [mem_rootsList]
  constructor
  · rintro ⟨hxk, hxp⟩
    by_contra hne
    exact hothers x hxk hne hxp
  · rintro rfl
    exact ⟨hrk, hrp⟩

/-! ## Paths (for the path-uniqueness specification) -/

/-- A concrete path in the graph: the list of visited identifiers, from the
start node to the end node, following `childs` edges. -/
inductive IsPath (g : AcyclicGraph) : Uuid → Uuid → List Uuid → Prop
  | single (a : Uuid) : IsPath g a a [a]
  | cons {a b c : Uuid} {p : List Uuid} (h : edgeB g a b = true) (hp : IsPath g b c p) :
      IsPath g a c (a :: p)

theorem isPath_reach {g : AcyclicGraph} {a b : Uuid} {p : List Uuid}
    (h : IsPath g a b p) : Reach g a b := by
  induction h with
  | single => exact Relation.ReflTransGen.refl
  | cons he _ ih => exact Relation.ReflTransGen.head he ih

theorem reach_isPath {g : AcyclicGraph} {a b : Uuid} (h : Reach g a b) :
    ∃ p, IsPath g a b p := by
  induction h using Relation.ReflTransGen.head_induction_on with
  | refl => exact ⟨[b], IsPath.single b⟩
  | head he _ ih =>
    obtain ⟨p, hp⟩ := ih
    exact ⟨_ :: p, IsPath.cons he hp⟩

theorem isPath_ne_nil {g : AcyclicGraph} {a b : Uuid} {p : List Uuid}
    (h : IsPath g a b p) : p ≠ [] := by
  cases h <;> simp

theorem isPath_snoc {g : AcyclicGraph} {a c : Uuid} {q : List Uuid}
    (h : IsPath g a c q) {b : Uuid} (he : edgeB g c b = true) :
    IsPath g a b (q ++ [b]) := by
  induction h with
  | single x => exact IsPath.cons he (IsPath.single b)
  | cons he' _ ih => exact IsPath.cons he' (ih he)

theorem isPath_snoc_cases {g : AcyclicGraph} {a b : Uuid} {p : List Uuid}
    (h : IsPath g a b p) :
    (a = b ∧ p = [a]) ∨
      ∃ c q, p = q ++ [b] ∧ IsPath g a c q ∧ edgeB g c b = true := by
  induction h with
  | single x => exact Or.inl ⟨rfl, rfl⟩
  | cons he hp ih =>
    rename_i a' b' c' p'
    rcases ih with ⟨heq, hpe⟩ | ⟨c, q, hpe, hq, he'⟩
    · subst heq
      exact Or.inr ⟨a', [a'], by rw [hpe]; rfl, IsPath.single a', he⟩
    · exact Or.inr ⟨c, a' :: q, by rw [hpe]; simp, IsPath.cons he hq, he'⟩

theorem isPath_head_eq {g : AcyclicGraph} {a b : Uuid} {p : List Uuid}
    (h : IsPath g a b p) : p.head? = some a := by
  cases h <;> rfl

theorem isPath_end_eq {g : AcyclicGraph} {a b b' : Uuid} {p : List Uuid}
    (h : IsPath g a b p) (h' : IsPath g a b' p) : b = b' := by
  induction h generalizing b' with
  | single x =>
    cases h' with
    | single => rfl
    | cons he hp => exact absurd rfl (isPath_ne_nil hp)
  | cons he hp ih =>
    cases h' with
    | single => exact absurd rfl (isPath_ne_nil hp)
    | cons he' hp' =>
      rename_i b1 c1 p1 b2
      have hh := isPath_head_eq hp
      have hh' := isPath_head_eq hp'
      rw [hh] at hh'
      injection hh' with hh'
      exact ih (hh' ▸ hp')

/-! ## Ancestor measure: structural induction over the parent relation -/

open Classical in
/-- In an acyclic graph, stepping from a node to one of its parents strictly
shrinks the set of ancestors — the measure for induction over parent chains. -/
theorem ancestors_card_lt {g : AcyclicGraph} (hac : Acyclic g) {a u : Uuid}
    (hedge : edgeB g a u = true) (hu : u ∈ g.keys) :
    (g.keys.toFinset.filter (fun z => Reach g z a)).card <
      (g.keys.toFinset.filter (fun z => Reach g z u)).card := by
  apply Finset.card_lt_card
  rw [Finset.ssubset_iff_of_subset ?hsub]
  case hsub =>
    intro z hz
    rw [Finset.mem_filter] at hz ⊢
    exact ⟨hz.1, hz.2.tail hedge⟩
  refine ⟨u, ?_, ?_⟩
  · rw [Finset.mem_filter]
    exact ⟨by simpa using hu, Relation.ReflTransGen.refl⟩
  · rw [Finset.mem_filter]
    rintro ⟨_, hru⟩
    exact hac a u hedge hru

open Classical in
/-- With a unique root, acyclicity and finiteness force every node to be
reachable from it: follow parents upward; the chain must end at the root. -/
theorem reach_root_of_unique_root {g : AcyclicGraph} (hac : Acyclic g)
    (hnd : KeysNodup g) {r : Uuid}
    (hothers : ∀ u ∈ g.keys, u ≠ r → parentsOf g u ≠ []) :
    ∀ u ∈ g.keys, Reach g r u := by
  suffices h : ∀ n u, u ∈ g.keys →
      (g.keys.toFinset.filter (fun z => Reach g z u)).card = n → Reach g r u by
    exact fun u hu => h _ u hu rfl
  intro n
  induction n using Nat.strong_induction_on with
  | _ n ih =>
    intro u hu hn
    by_cases hur : u = r
    · subst hur
      exact Relation.ReflTransGen.refl
    · have hpne := hothers u hu hur
      rcases hp : parentsOf g u with _ | ⟨a, rest⟩
      · exact absurd hp hpne
      · have ha : edgeB g a u = true :=
          (mem_parentsOf hnd).1 (by rw [hp]; exact List.mem_cons_self _ _)
        have hak : a ∈ g.keys := edgeB_source_mem_keys ha
        have hlt := ancestors_card_lt hac ha hu
        rw [hn] at hlt
        exact Relation.ReflTransGen.tail (ih _ hlt a hak rfl) ha

open Classical in
/-- Unique parents (among root-reachable nodes) plus no edge back to the root
force the path from the root to any node to be unique. -/
theorem path_unique {g : AcyclicGraph} (hwf : WF g) (hac : Acyclic g) {r : Uuid}
    (hup : ∀ u a b, Reach g r a → Reach g r b →
      edgeB g a u = true → edgeB g b u = true → a = b)
    (hner : ∀ a, Reach g r a → edgeB g a r ≠ true) :
    ∀ u p q, IsPath g r u p → IsPath g r u q → p = q := by
  suffices h : ∀ n u, (g.keys.toFinset.filter (fun z => Reach g z u)).card = n →
      ∀ p q, IsPath g r u p → IsPath g r u q → p = q by
    exact fun u p q hp hq => h _ u rfl p q hp hq
  intro n
  induction n using Nat.strong_induction_on with
  | _ n ih =>
    intro u hn p q hp hq
    by_cases hur : u = r
    · rw [hur] at hp hq
      have hpr : p = [r] := by
        rcases isPath_snoc_cases hp with ⟨_, hpe⟩ | ⟨c, q', _, hq', he⟩
        · exact hpe
        · exact absurd he (hner c (isPath_reach hq'))
      have hqr : q = [r] := by
        rcases isPath_snoc_cases hq with ⟨_, hqe⟩ | ⟨c, q', _, hq', he⟩
        · exact hqe
        · exact absurd he (hner c (isPath_reach hq'))
      rw [hpr, hqr]
    · rcases isPath_snoc_cases hp with ⟨heq, _⟩ | ⟨c1, q1, hpe, hq1, he1⟩
      · exact absurd heq.symm hur
      rcases isPath_snoc_cases hq with ⟨heq, _⟩ | ⟨c2, q2, hqe, hq2, he2⟩
      · exact absurd heq.symm hur
      have hc12 : c1 = c2 := hup u c1 c2 (isPath_reach hq1) (isPath_reach hq2) he1 he2
      subst hc12
      have hu : u ∈ g.keys := edgeB_target_mem_keys hwf he1
      have hlt := ancestors_card_lt hac he1 hu
      rw [hn] at hlt
      have hq12 := ih _ hlt c1 rfl q1 q2 hq1 hq2
      rw [hpe, hqe, hq12]

/-! ## The path-uniqueness walk (`have_only_one_path`) -/

theorem visitChilds_some_spec {cs : List Uuid} :
    ∀ {q : List Uuid} {v : Finset Uuid} {q' : List Uuid} {v' : Finset Uuid},
      visitChilds cs q v = some (q', v') →
      q' = q ++ cs ∧ (∀ x, x ∈ v' ↔ x ∈ v ∨ x ∈ cs) ∧ (∀ x ∈ cs, x ∉ v) ∧ cs.Nodup := by
  induction cs with
  | nil =>
    intro q v q' v' h
    rw [visitChilds] at h
    injection h with h
    have h1 : q = q' := congrArg Prod.fst h
    have h2 : v = v' := congrArg Prod.snd h
    subst h1
    subst h2
    exact ⟨by simp, by simp, by simp, List.nodup_nil⟩
  | cons ch rest ih =>
    intro q v q' v' h
    rw [visitChilds] at h
    by_cases hch : ch ∈ v
    · rw [if_pos hch] at h
      cases h
    · rw [if_neg hch] at h
      obtain ⟨h1, h2, h3, h4⟩ := ih h
      refine ⟨by rw [h1]; simp, ?_, ?_, ?_⟩
      · intro x
        rw [h2 x]
        simp only [Finset.mem_insert, List.mem_cons]
        tauto
      · intro x hx
        rcases List.mem_cons.1 hx with hx | hx
        · exact hx ▸ hch
        · exact fun hv => h3 x hx (Finset.mem_insert_of_mem hv)
      · refine List.Nodup.cons (fun hm => ?_) h4
        exact h3 ch hm (Finset.mem_insert_self _ _)

theorem visitChilds_some_of_fresh {cs : List Uuid} :
    ∀ {q : List Uuid} {v : Finset Uuid}, cs.Nodup → (∀ x ∈ cs, x ∉ v) →
      ∃ v', visitChilds cs q v = some (q ++ cs, v') := by
  induction cs with
  | nil => intro q v _ _; exact ⟨v, by rw [visitChilds]; simp⟩
  | cons ch rest ih =>
    intro q v hnd hfresh
    rw [visitChilds, if_neg (hfresh ch (List.mem_cons_self _ _))]
    rw [List.nodup_cons] at hnd
    have hfresh2 : ∀ x ∈ rest, x ∉ insert ch v := by
      intro x hx hvx
      rcases Finset.mem_insert.1 hvx with h | h
      · exact hnd.1 (h ▸ hx)
      · exact hfresh x (List.mem_cons_of_mem _ hx) h
    obtain ⟨v', hv'⟩ := ih (q := q ++ [ch]) (v := insert ch v) hnd.2 hfresh2
    exact ⟨v', by rw [hv']; simp⟩

theorem visitChilds_finset {cs q v q' v'} (h : visitChilds cs q v = some (q', v')) :
    v' = v ∪ cs.toFinset := by
  obtain ⟨_, h2, _, _⟩ := visitChilds_some_spec h
  ext x
  rw [h2 x]
  simp

theorem bfsPath_fuel_sufficient {g : AcyclicGraph} {r : Uuid} :
    ∀ (fuel : Nat) (q : List Uuid) (v : Finset Uuid),
      (∀ y ∈ q, y ∈ v) → v ⊆ insert r (allIds g) →
      q.length + ((insert r (allIds g)) \ v).card + 1 ≤ fuel →
      (bfsPath g fuel q v).isSome := by
  intro fuel
  induction fuel with
  | zero => intro q v _ _ h; omega
  | succ fuel ih =>
    intro q v hqv hvU hm
    match q with
    | [] => simp [bfsPath]
    | current :: rest =>
      rw [bfsPath]
      rcases hl : lookupNode g.nodes current with _ | node
      · refine ih rest v (fun y hy => hqv y (List.mem_cons_of_mem _ hy)) hvU ?_
        simp at hm
        omega
      · show (match visitChilds node.childs rest v with
          | none => some false
          | some qs => bfsPath g fuel qs.1 qs.2).isSome = true
        rcases hv : visitChilds node.childs rest v with _ | ⟨q2, v2⟩
        · rfl
        · obtain ⟨h1, _, h3, h4⟩ := visitChilds_some_spec hv
          have hcsU : ∀ y ∈ node.childs, y ∈ insert r (allIds g) :=
            fun y hy => Finset.mem_insert_of_mem (child_mem_allIds hl hy)
          have hv2 : v2 = v ∪ node.childs.toFinset := visitChilds_finset hv
          have hsub : node.childs.toFinset ⊆ insert r (allIds g) \ v := by
            intro x hx
            rw [List.mem_toFinset] at hx
            exact Finset.mem_sdiff.2 ⟨hcsU x hx, h3 x hx⟩
          refine ih q2 v2 ?_ ?_ ?_
          · intro y hy
            rw [h1] at hy
            rw [hv2]
            rcases List.mem_append.1 hy with hy | hy
            · exact Finset.mem_union_left _ (hqv y (List.mem_cons_of_mem _ hy))
            · exact Finset.mem_union_right _ (List.mem_toFinset.2 hy)
          · rw [hv2]
            exact Finset.union_subset hvU (hsub.trans (Finset.sdiff_subset))
          · have hsd2 : (insert r (allIds g)) \ v2 =
                ((insert r (allIds g)) \ v) \ node.childs.toFinset := by
              rw [hv2]
              ext z
              simp only [Finset.mem_sdiff, Finset.mem_union]
              tauto
            have hcard : ((insert r (allIds g)) \ v2).card =
                ((insert r (allIds g)) \ v).card - node.childs.toFinset.card := by
              rw [hsd2, Finset.card_sdiff hsub]
            have hlecard : node.childs.toFinset.card ≤ ((insert r (allIds g)) \ v).card :=
              Finset.card_le_card hsub
            have htf : node.childs.toFinset.card = node.childs.length :=
              List.toFinset_card_of_nodup h4
            have hq2len : q2.length = rest.length + node.childs.length := by
              rw [h1]
              simp
            simp only [List.length_cons] at hm
            omega

theorem have_only_one_path_eq_bfs (g : AcyclicGraph) (r : Uuid) :
    bfsPath g (pathFuel g r) [r] {r} = some (have_only_one_path g r) := by
  have hr : r ∈ insert r (allIds g) := Finset.mem_insert_self _ _
  have h := bfsPath_fuel_sufficient (g := g) (r := r) (pathFuel g r) [r] {r}
    (by simp) (Finset.singleton_subset_iff.2 hr) ?_
  · rcases hb : bfsPath g (pathFuel g r) [r] {r} with _ | b
    · rw [hb] at h
      cases h
    · unfold have_only_one_path
      rw [hb]
      rfl
  · have hcard : ((insert r (allIds g)) \ {r}).card = (insert r (allIds g)).card - 1 := by
      rw [Finset.card_sdiff (Finset.singleton_subset_iff.2 hr)]
      simp
    have hpos : 0 < (insert r (allIds g)).card := Finset.card_pos.2 ⟨r, hr⟩
    unfold pathFuel
    simp only [List.length_singleton]
    omega

/-- If every node has at most one parent, the root is nobody's child and every
`childs` set is duplicate-free, the path-uniqueness walk can never hit an
already-visited node: `have_only_one_path` returns `true`. -/
theorem bfsPath_true_of_unique_parent {g : AcyclicGraph} {r : Uuid}
    (hcn : ChildsNodup g)
    (hrnc : ∀ a, edgeB g a r ≠ true)
    (hup : ∀ u a b, edgeB g a u = true → edgeB g b u = true → a = b) :
    have_only_one_path g r = true := by
  have key : ∀ (fuel : Nat) (q : List Uuid) (v : Finset Uuid),
      q.Nodup → (∀ x ∈ q, x ∈ v) → r ∈ v →
      (∀ x ∈ v, x = r ∨ ∃ a, edgeB g a x = true ∧ a ∈ v ∧ a ∉ q) →
      bfsPath g fuel q v ≠ some false := by
    intro fuel
    induction fuel with
    | zero =>
      intro q v _ _ _ _ h
      simp [bfsPath] at h
    | succ fuel ih =>
      intro q v hnd hqv hrv hK1 h
      match q with
      | [] =>
        rw [bfsPath] at h
        simp at h
      | current :: rest =>
        rw [bfsPath] at h
        rcases hl : lookupNode g.nodes current with _ | node
        · rw [hl] at h
          replace h : bfsPath g fuel rest v = some false := h
          refine ih rest v (List.Nodup.of_cons hnd)
            (fun x hx => hqv x (List.mem_cons_of_mem _ hx)) hrv ?_ h
          intro x hxv
          rcases hK1 x hxv with hx | ⟨a, ha, hav, haq⟩
          · exact Or.inl hx
          · exact Or.inr ⟨a, ha, hav, fun hmem => haq (List.mem_cons_of_mem _ hmem)⟩
        · rw [hl] at h
          have hcurv : current ∈ v := hqv current (List.mem_cons_self _ _)
          have hfresh : ∀ ch ∈ node.childs, ch ∉ v := by
            intro ch hch hvch
            have hech : edgeB g current ch = true := edgeB_iff.2 ⟨node, hl, hch⟩
            rcases hK1 ch hvch with hcr | ⟨a, ha, _, haq⟩
            · exact hrnc current (hcr ▸ hech)
            · have hac : a = current := hup ch a current ha hech
              exact haq (hac ▸ List.mem_cons_self _ _)
          have hchnd : node.childs.Nodup := hcn (current, node) (lookupNode_mem hl)
          obtain ⟨v', hv'⟩ := visitChilds_some_of_fresh (q := rest) hchnd hfresh
          obtain ⟨_, h2, _, _⟩ := visitChilds_some_spec hv'
          replace h : bfsPath g fuel (rest ++ node.childs) v' = some false := by
            replace h : (match visitChilds node.childs rest v with
              | none => some false
              | some qs => bfsPath g fuel qs.1 qs.2) = some false := h
            rw [hv'] at h
            exact h
          have hrest : ∀ x ∈ rest, x ∈ v := fun x hx => hqv x (List.mem_cons_of_mem _ hx)
          refine ih _ v' ?_ ?_ ?_ ?_ h
          · rw [List.nodup_append]
            refine ⟨List.Nodup.of_cons hnd, hchnd, fun x hx hx' => ?_⟩
            exact hfresh x hx' (hrest x hx)
          · intro x hx
            rcases List.mem_append.1 hx with hx | hx
            · exact (h2 x).2 (Or.inl (hrest x hx))
            · exact (h2 x).2 (Or.inr hx)
          · exact (h2 r).2 (Or.inl hrv)
          · intro x hxv'
            rcases (h2 x).1 hxv' with hxv | hxcs
            · rcases hK1 x hxv with hx | ⟨a, ha, hav, haq⟩
              · exact Or.inl hx
              · refine Or.inr ⟨a, ha, (h2 a).2 (Or.inl hav), fun hmem => ?_⟩
                rcases List.mem_append.1 hmem with hmem | hmem
                · exact haq (List.mem_cons_of_mem _ hmem)
                · exact hfresh a hmem hav
            · refine Or.inr ⟨current, edgeB_iff.2 ⟨node, hl, hxcs⟩,
                (h2 current).2 (Or.inl hcurv), fun hmem => ?_⟩
              rcases List.mem_append.1 hmem with hmem | hmem
              · exact (List.nodup_cons.1 hnd).1 hmem
              · exact hfresh current hmem hcurv
  have heq := have_only_one_path_eq_bfs g r
  rcases hb : have_only_one_path g r with _ | _
  · rw [hb] at heq
    exact absurd heq (key (pathFuel g r) [r] {r} (by simp) (by simp) (by simp)
      (by intro x hx; simp at hx; exact Or.inl hx))
  · rfl

/-- What a successful (`true`) path-uniqueness walk certifies: among nodes
reachable from the start, no node has two distinct parents, and no reachable
node has an edge back to the start. -/
theorem bfsPath_true_consequences {g : AcyclicGraph} {r : Uuid} :
    ∀ (fuel : Nat) (q : List Uuid) (v : Finset Uuid),
      q.Nodup → (∀ x ∈ q, x ∈ v) → r ∈ v →
      (∀ x ∈ v, Reach g r x) →
      (∀ y, Reach g r y → y ∈ v ∨ ∃ z ∈ q, Reach g z y) →
      (∀ x ∈ v, x ∉ q → ∀ node, lookupNode g.nodes x = some node →
        ∀ ch ∈ node.childs, ch ∈ v ∧ ch ≠ r) →
      (∀ u a b, a ∈ v → a ∉ q → b ∈ v → b ∉ q →
        edgeB g a u = true → edgeB g b u = true → a = b) →
      bfsPath g fuel q v = some true →
      (∀ u a b, Reach g r a → Reach g r b →
        edgeB g a u = true → edgeB g b u = true → a = b) ∧
      (∀ a, Reach g r a → edgeB g a r ≠ true) := by
  intro fuel
  induction fuel with
  | zero =>
    intro q v _ _ _ _ _ _ _ h
    simp [bfsPath] at h
  | succ fuel ih =>
    intro q v hnd hqv hrv hvr hfrontier hclosed huniq h
    match q with
    | [] =>
      constructor
      · intro u a b hra hrb hea heb
        have hav : a ∈ v := by
          rcases hfrontier a hra with hav | ⟨z, hz, _⟩
          · exact hav
          · cases hz
        have hbv : b ∈ v := by
          rcases hfrontier b hrb with hbv | ⟨z, hz, _⟩
          · exact hbv
          · cases hz
        exact huniq u a b hav (by simp) hbv (by simp) hea heb
      · intro a hra hea
        have hav : a ∈ v := by
          rcases hfrontier a hra with hav | ⟨z, hz, _⟩
          · exact hav
          · cases hz
        obtain ⟨node, hl, hm⟩ := edgeB_iff.1 hea
        exact (hclosed a hav (by simp) node hl r hm).2 rfl
    | current :: rest =>
      rw [bfsPath] at h
      have hcurv : current ∈ v := hqv current (List.mem_cons_self _ _)
      have hrest : ∀ x ∈ rest, x ∈ v := fun x hx => hqv x (List.mem_cons_of_mem _ hx)
      rcases hl : lookupNode g.nodes current with _ | node
      · rw [hl] at h
        replace h : bfsPath g fuel rest v = some true := h
        refine ih rest v (List.Nodup.of_cons hnd) hrest hrv hvr ?_ ?_ ?_ h
        · intro y hy
          rcases hfrontier y hy with hyv | ⟨z, hz, hzy⟩
          · exact Or.inl hyv
          · rcases List.mem_cons.1 hz with hz | hz
            · subst hz
              exact Or.inl (reach_of_lookup_none hl hzy ▸ hcurv)
            · exact Or.inr ⟨z, hz, hzy⟩
        · intro x hxv hxq node' hl'
          by_cases hxc : x = current
          · rw [hxc, hl] at hl'
            cases hl'
          · exact hclosed x hxv (fun hmem => by
              rcases List.mem_cons.1 hmem with hmem | hmem
              · exact hxc hmem
              · exact hxq hmem) node' hl'
        · intro u a b hav haq hbv hbq hea heb
          by_cases hac : a = current
          · obtain ⟨na, hla, _⟩ := edgeB_iff.1 hea
            rw [hac, hl] at hla
            cases hla
          · by_cases hbc : b = current
            · obtain ⟨nb, hlb, _⟩ := edgeB_iff.1 heb
              rw [hbc, hl] at hlb
              cases hlb
            · refine huniq u a b hav ?_ hbv ?_ hea heb
              · intro hmem
                rcases List.mem_cons.1 hmem with hmem | hmem
                · exact hac hmem
                · exact haq hmem
              · intro hmem
                rcases List.mem_cons.1 hmem with hmem | hmem
                · exact hbc hmem
                · exact hbq hmem
      · rw [hl] at h
        replace h : (match visitChilds node.childs rest v with
          | none => some false
          | some qs => bfsPath g fuel qs.1 qs.2) = some true := h
        rcases hv : visitChilds node.childs rest v with _ | ⟨q2, v2⟩
        · rw [hv] at h
          cases h
        · rw [hv] at h
          replace h : bfsPath g fuel q2 v2 = some true := h
          obtain ⟨h1, h2, h3, h4⟩ := visitChilds_some_spec hv
          have hcs_q2 : ∀ x ∈ node.childs, x ∈ q2 := by
            intro x hx
            rw [h1]
            exact List.mem_append.2 (Or.inr hx)
          have hold_of_nq2 : ∀ x, x ∈ v2 → x ∉ q2 →
              x ∈ v ∧ (x = current ∨ x ∉ current :: rest) := by
            intro x hxv2 hxq2
            have hxv : x ∈ v := by
              rcases (h2 x).1 hxv2 with hxv | hxcs
              · exact hxv
              · exact absurd (hcs_q2 x hxcs) hxq2
            refine ⟨hxv, ?_⟩
            by_cases hxc : x = current
            · exact Or.inl hxc
            · refine Or.inr (fun hmem => ?_)
              rcases List.mem_cons.1 hmem with hmem | hmem
              · exact hxc hmem
              · exact hxq2 (by rw [h1]; exact List.mem_append.2 (Or.inl hmem))
          have hcur_nq2 : current ∉ q2 := by
            rw [h1]
            intro hmem
            rcases List.mem_append.1 hmem with hmem | hmem
            · exact (List.nodup_cons.1 hnd).1 hmem
            · exact h3 current hmem hcurv
          refine ih q2 v2 ?_ ?_ ?_ ?_ ?_ ?_ ?_ h
          · rw [h1, List.nodup_append]
            exact ⟨List.Nodup.of_cons hnd, h4, fun x hx hx' => h3 x hx' (hrest x hx)⟩
          · intro x hx
            rw [h1] at hx
            rcases List.mem_append.1 hx with hx | hx
            · exact (h2 x).2 (Or.inl (hrest x hx))
            · exact (h2 x).2 (Or.inr hx)
          · exact (h2 r).2 (Or.inl hrv)
          · intro x hx
            rcases (h2 x).1 hx with hx | hx
            · exact hvr x hx
            · exact Relation.ReflTransGen.tail (hvr current hcurv)
                (edgeB_iff.2 ⟨node, hl, hx⟩)
          · intro y hy
            rcases hfrontier y hy with hyv | ⟨z, hz, hzy⟩
            · exact Or.inl ((h2 y).2 (Or.inl hyv))
            · rcases List.mem_cons.1 hz with hz | hz
              · subst hz
                rcases Relation.ReflTransGen.cases_head hzy with hz | ⟨w, hw, hwy⟩
                · exact Or.inl ((h2 y).2 (Or.inl (hz ▸ hcurv)))
                · obtain ⟨n', hl', hw'⟩ := edgeB_iff.1 hw
                  rw [hl] at hl'
                  injection hl' with hl'
                  subst hl'
                  exact Or.inr ⟨w, hcs_q2 w hw', hwy⟩
              · exact Or.inr ⟨z, by rw [h1]; exact List.mem_append.2 (Or.inl hz), hzy⟩
          · intro x hxv2 hxq2 node' hl' ch hch
            obtain ⟨hxv, hxcase⟩ := hold_of_nq2 x hxv2 hxq2
            rcases hxcase with hxc | hxq
            · subst hxc
              rw [hl] at hl'
              injection hl' with hl'
              subst hl'
              refine ⟨(h2 ch).2 (Or.inr hch), fun hchr => ?_⟩
              exact h3 ch hch (hchr ▸ hrv)
            · obtain ⟨hv1, hv2'⟩ := hclosed x hxv hxq node' hl' ch hch
              exact ⟨(h2 ch).2 (Or.inl hv1), hv2'⟩
          · intro u a b hav2 hanq2 hbv2 hbnq2 hea heb
            obtain ⟨hav, hacase⟩ := hold_of_nq2 a hav2 hanq2
            obtain ⟨hbv, hbcase⟩ := hold_of_nq2 b hbv2 hbnq2
            rcases hacase with hac | haq
            · rcases hbcase with hbc | hbq
              · rw [hac, hbc]
              · obtain ⟨na, hla, hua⟩ := edgeB_iff.1 hea
                rw [hac, hl] at hla
                injection hla with hla
                subst hla
                have hufresh : u ∉ v := h3 u hua
                obtain ⟨hubv, _⟩ := hclosed b hbv hbq
                  (edgeB_iff.1 heb).choose (edgeB_iff.1 heb).choose_spec.1 u
                  (edgeB_iff.1 heb).choose_spec.2
                exact absurd hubv hufresh
            · rcases hbcase with hbc | hbq
              · obtain ⟨nb, hlb, hub⟩ := edgeB_iff.1 heb
                rw [hbc, hl] at hlb
                injection hlb with hlb
                subst hlb
                have hufresh : u ∉ v := h3 u hub
                obtain ⟨huav, _⟩ := hclosed a hav haq
                  (edgeB_iff.1 hea).choose (edgeB_iff.1 hea).choose_spec.1 u
                  (edgeB_iff.1 hea).choose_spec.2
                exact absurd huav hufresh
              · exact huniq u a b hav haq hbv hbq hea heb

/-! ## The validator verdict -/

theorem validator_ok_iff_bfs {g : AcyclicGraph} :
    validator g = .ok () ↔ ∃ r, rootsList g = [r] ∧ have_only_one_path g r = true := by
  unfold validator
  rcases hr : rootsList g with _ | ⟨r0, rest⟩
  · simp
  · rcases rest with _ | ⟨r1, rest'⟩
    · show (if have_only_one_path g r0 = true then (Except.ok () : Except Unit Unit)
        else Except.error ()) = Except.ok () ↔ _
      by_cases hb : have_only_one_path g r0 = true
      · rw [if_pos hb]
        constructor
        · intro _
          exact ⟨r0, rfl, hb⟩
        · intro _
          rfl
      · rw [if_neg hb]
        constructor
        · intro h
          cases h
        · rintro ⟨r, hr', hb'⟩
          injection hr' with hr' _
          exact absurd (hr' ▸ hb') hb
    · simp

/-- The core of the validator specification: on a graph satisfying the store
invariants, `validator` accepts exactly the graphs with a unique root and a
unique path from that root to every node. -/
theorem validator_ok_iff_tree {g : AcyclicGraph} (hwf : WF g) (hac : Acyclic g)
    (hnd : KeysNodup g) (hcn : ChildsNodup g) :
    validator g = .ok () ↔
      ∃ r, rootsList g = [r] ∧ ∀ u ∈ g.keys, ∃! p, IsPath g r u p := by
  rw [validator_ok_iff_bfs]
  constructor
  · rintro ⟨r, hroots, hbfs⟩
    refine ⟨r, hroots, ?_⟩
    have hrmem : r ∈ rootsList g := by
      rw [hroots]
      exact List.mem_cons_self _ _
    obtain ⟨hrk, _⟩ := mem_rootsList.1 hrmem
    have hothers : ∀ u ∈ g.keys, u ≠ r → parentsOf g u ≠ [] := by
      intro u hu hne hp
      have hm : u ∈ rootsList g := mem_rootsList.2 ⟨hu, hp⟩
      rw [hroots] at hm
      simp at hm
      exact hne hm
    have hreachall := reach_root_of_unique_root hac hnd hothers
    have hbfs' : bfsPath g (pathFuel g r) [r] {r} = some true := by
      rw [have_only_one_path_eq_bfs, hbfs]
    have hinit4 : ∀ x ∈ ({r} : Finset Uuid), Reach g r x := by
      intro x hx
      simp at hx
      subst hx
      exact Relation.ReflTransGen.refl
    have hinit5 : ∀ y, Reach g r y → y ∈ ({r} : Finset Uuid) ∨ ∃ z ∈ [r], Reach g z y := by
      intro y hy
      exact Or.inr ⟨r, List.mem_cons_self _ _, hy⟩
    have hinit6 : ∀ x ∈ ({r} : Finset Uuid), x ∉ [r] → ∀ node,
        lookupNode g.nodes x = some node → ∀ ch ∈ node.childs, ch ∈ ({r} : Finset Uuid) ∧ ch ≠ r := by
      intro x hx hxq
      simp at hx
      simp [hx] at hxq
    have hinit7 : ∀ u a b, a ∈ ({r} : Finset Uuid) → a ∉ [r] → b ∈ ({r} : Finset Uuid) →
        b ∉ [r] → edgeB g a u = true → edgeB g b u = true → a = b := by
      intro u a b hav haq _ _ _ _
      simp at hav
      simp [hav] at haq
    obtain ⟨hup2, hner⟩ := bfsPath_true_consequences (pathFuel g r) [r] {r}
      (by simp) (by simp) (by simp) hinit4 hinit5 hinit6 hinit7 hbfs'
    have huniq := path_unique hwf hac hup2 hner
    intro u hu
    obtain ⟨p, hp⟩ := reach_isPath (hreachall u hu)
    exact ⟨p, hp, fun y hy => huniq u y p hy hp⟩
  · rintro ⟨r, hroots, huniq⟩
    refine ⟨r, hroots, ?_⟩
    have hrmem : r ∈ rootsList g := by
      rw [hroots]
      exact List.mem_cons_self _ _
    obtain ⟨hrk, _⟩ := mem_rootsList.1 hrmem
    have hrnc : ∀ a, edgeB g a r ≠ true := by
      intro a ha
      have hak : a ∈ g.keys := edgeB_source_mem_keys ha
      obtain ⟨pa, hpa, _⟩ := huniq a hak
      obtain ⟨pr, hpr, hprU⟩ := huniq r hrk
      have h1 := hprU _ (isPath_snoc hpa ha)
      have h2 := hprU _ (IsPath.single r)
      rw [← h2] at h1
      have hnil : pa = [] := by
        have := h1
        rcases pa with _ | ⟨x, xs⟩
        · rfl
        · simp at this
      exact isPath_ne_nil hpa hnil
    have hup : ∀ u a b, edgeB g a u = true → edgeB g b u = true → a = b := by
      intro u a b ha hb
      have hak : a ∈ g.keys := edgeB_source_mem_keys ha
      have hbk : b ∈ g.keys := edgeB_source_mem_keys hb
      obtain ⟨pa, hpa, _⟩ := huniq a hak
      obtain ⟨pb, hpb, _⟩ := huniq b hbk
      have huk : u ∈ g.keys := edgeB_target_mem_keys hwf ha
      obtain ⟨pu, hpu, hpuU⟩ := huniq u huk
      have h1 := hpuU _ (isPath_snoc hpa ha)
      have h2 := hpuU _ (isPath_snoc hpb hb)
      have hpp : pa ++ [u] = pb ++ [u] := h1.trans h2.symm
      have hab : pa = pb := by simpa using hpp
      exact isPath_end_eq hpa (hab ▸ hpb)
    exact bfsPath_true_of_unique_parent hcn hrnc hup

/-! ## Claim theorems: C6 and C9 -/

/-- The diamond graph of the claim: nodes `{0, 1, 2}` standing for `{A, B, C}`
with edges `A→B`, `A→C`, `B→C` — node `2` (`C`) is reachable by two paths. -/
def gDiamond : AcyclicGraph :=
  ⟨"g", [(0, ⟨some "A", .None, [1, 2]⟩), (1, ⟨some "B", .None, [2]⟩),
         (2, ⟨some "C", .None, []⟩)]⟩

/-- Two isolated nodes: two roots, so the root-count check fails. -/
def gTwoRoots : AcyclicGraph :=
  ⟨"g", [(0, ⟨some "A", .None, []⟩), (1, ⟨some "B", .None, []⟩)]⟩

/-- Claim C6, counterexample.  The claim asserts that on failure the returned
error carries the specific violated property.  The validator's result type is
`Result<(), ()>`: both a root-count failure (`gTwoRoots`) and a
path-uniqueness failure (`gDiamond`, which passes the root check but fails the
path walk) return the very same payload-free error value, so the returned
error cannot carry which property was violated. -/
theorem C6_counterexample :
    validator gTwoRoots = .error () ∧ validator gDiamond = .error () ∧
    validator gTwoRoots = validator gDiamond ∧
    (rootsList gTwoRoots).length = 2 ∧
    rootsList gDiamond = [0] ∧ have_only_one_path gDiamond 0 = false := by
  refine ⟨by decide, by decide, by decide, by decide, by decide, by decide⟩

/-- Claim C6, amended.  On every graph satisfying the store invariants,
`validator` returns `Ok` if and only if the graph has exactly one root and
exactly one path from that root to every node; on failure the returned error
is the unit value (the violated property is reported only in the diagnostic
output, not in the returned error).  In particular the three-node diamond
`A→B, A→C, B→C` passes the root check and is rejected by the path-uniqueness
check. -/
theorem C6_validator_iff_tree_and_diamond :
    (∀ g : AcyclicGraph, WF g → Acyclic g → KeysNodup g → ChildsNodup g →
      (validator g = .ok () ↔
        ∃ r, rootsList g = [r] ∧ ∀ u ∈ g.keys, ∃! p, IsPath g r u p)) ∧
    (rootsList gDiamond = [0] ∧ have_only_one_path gDiamond 0 = false ∧
      validator gDiamond = .error ()) := by
  refine ⟨fun g hwf hac hnd hcn => validator_ok_iff_tree hwf hac hnd hcn,
    by decide, by decide, by decide⟩

theorem edgeB_gOneNode (a b : Uuid) : edgeB gOneNode a b ≠ true := by
  intro h
  obtain ⟨n, hl, hb⟩ := edgeB_iff.1 h
  by_cases ha : (0 : Uuid) = a
  · rw [show gOneNode.nodes = [(0, ⟨some "R", .None, []⟩)] from rfl, lookupNode_cons,
      if_pos ha] at hl
    injection hl with hl
    rw [← hl] at hb
    cases hb
  · rw [show gOneNode.nodes = [(0, ⟨some "R", .None, []⟩)] from rfl, lookupNode_cons,
      if_neg ha] at hl
    cases hl

/-- Witness for the amended C6, applying the iff on the concrete single-node
graph `gOneNode` (all four invariant hypotheses discharged concretely). -/
theorem C6_witness :
    validator gOneNode = .ok () ↔
      ∃ r, rootsList gOneNode = [r] ∧ ∀ u ∈ gOneNode.keys, ∃! p, IsPath gOneNode r u p :=
  C6_validator_iff_tree_and_diamond.1 gOneNode (by decide)
    (fun a b h => absurd h (edgeB_gOneNode a b)) (by decide) (by decide)

/-- Claim C9.  Every graph consisting of a single node (any identifier, display
name, payload and graph label) and no edges validates: the root count is
exactly 1 and the computed maximum depth is 0. -/
theorem C9_single_node_validates (u : Uuid) (nm : Option String) (d : NodeData)
    (gname : String) :
    validator ⟨gname, [(u, ⟨nm, d, []⟩)]⟩ = .ok () ∧
    rootsList ⟨gname, [(u, ⟨nm, d, []⟩)]⟩ = [u] ∧
    max_deepth ⟨gname, [(u, ⟨nm, d, []⟩)]⟩ = 0 := by
  have hroots : rootsList ⟨gname, [(u, ⟨nm, d, []⟩)]⟩ = [u] := by
    simp [rootsList, parentsOf, AcyclicGraph.keys]
  have hpath : have_only_one_path ⟨gname, [(u, ⟨nm, d, []⟩)]⟩ u = true := by
    simp [have_only_one_path, pathFuel, allIds, bfsPath, visitChilds, lookupNode]
  refine ⟨?_, hroots, ?_⟩
  · unfold validator
    rw [hroots]
    show (if have_only_one_path ⟨gname, [(u, ⟨nm, d, []⟩)]⟩ u = true
      then (Except.ok () : Except Unit Unit) else Except.error ()) = Except.ok ()
    rw [if_pos hpath]
  · simp [max_deepth, deepths, deepthsLoop, deepthsRound, parentsOf, updateMaxEntry,
      insertOnce]

/-! ## Generator accounting (claims C4, C5, C7) -/

theorem insertChildList_length (l : List (Uuid × Node)) (p c : Uuid) :
    (insertChildList l p c).length = l.length := by
  induction l with
  | nil => rfl
  | cons e es ih =>
    rw [insertChildList]
    by_cases hep : e.1 = p
    · rw [if_pos hep]
      simp
    · rw [if_neg hep]
      simpa using ih

theorem add_child_nodes_length {g : AcyclicGraph} {p c : Uuid} {g' : AcyclicGraph}
    (h : g.add_child p c = (.ok (), g')) : g'.nodes.length = g.nodes.length := by
  rcases add_child_eq g p c with ⟨e', _, heq⟩ | ⟨_, _, heq⟩ | ⟨node, _, _, _, heq⟩ |
    ⟨node, _, _, _, heq⟩ <;> rw [heq] at h
  · cases h
  · cases h
  · cases h
  · injection h with _ h2
    rw [← h2]
    exact insertChildList_length g.nodes p c

theorem add_node_nodes_length {g g' : AcyclicGraph} {u : Uuid} {name : Option String}
    {data : NodeData} (h : g.add_node_uuid u name data = some g') :
    g'.nodes.length = g.nodes.length + 1 := by
  obtain ⟨_, hg⟩ := lookupNode_addNode h
  rw [hg]
  simp

theorem attemptChilds_spec (o : GenOracle) (node : Uuid) (n : Nat) :
    ∀ (k : Nat) (st : GenState) (next : List Uuid) (i : Nat) st' next' i' brk,
      attemptChilds o node n k st next i = .ok (st', next', i', brk) →
      i ≤ i' ∧ i' ≤ max i n ∧ next'.length = next.length + (i' - i) ∧
        st'.graph.nodes.length = st.graph.nodes.length + (i' - i) := by
  intro k
  induction k with
  | zero =>
    intro st next i st' next' i' brk h
    rw [attemptChilds] at h
    injection h with h
    have h1 : st = st' := congrArg (fun x => x.1) h
    have h2 : next = next' := congrArg (fun x => x.2.1) h
    have h3 : i = i' := congrArg (fun x => x.2.2.1) h
    subst h1
    subst h2
    subst h3
    exact ⟨le_refl _, Nat.le_max_left _ _, by omega, by omega⟩
  | succ k ih =>
    intro st next i st' next' i' brk h
    rw [attemptChilds] at h
    by_cases hni : n ≤ i
    · rw [if_pos hni] at h
      injection h with h
      have h1 : st = st' := congrArg (fun x => x.1) h
      have h2 : next = next' := congrArg (fun x => x.2.1) h
      have h3 : i = i' := congrArg (fun x => x.2.2.1) h
      subst h1
      subst h2
      subst h3
      exact ⟨le_refl _, Nat.le_max_left _ _, by omega, by omega⟩
    · rw [if_neg hni] at h
      rcases hadd : st.graph.add_node_uuid (o.freshUuid st.uuidCtr) (o.petname st.nameCtr)
          .None with _ | g2
      · rw [hadd] at h
        cases h
      · rw [hadd] at h
        replace h : (match g2.add_child node (o.freshUuid st.uuidCtr) with
            | (.ok _, g') => attemptChilds o node n k
                ⟨g', st.uuidCtr + 1, st.childCtr, st.nameCtr + 1⟩
                (next ++ [o.freshUuid st.uuidCtr]) (i + 1)
            | (.error _, _) =>
                (Except.error GenError.Panic :
                  Except GenError (GenState × List Uuid × Nat × Bool))) =
            .ok (st', next', i', brk) := h
        rcases hac : g2.add_child node (o.freshUuid st.uuidCtr) with ⟨res, g3⟩
        rcases res with e | uu
        · replace h : (Except.error GenError.Panic :
              Except GenError (GenState × List Uuid × Nat × Bool)) =
              .ok (st', next', i', brk) := by
            rw [hac] at h
            exact h
          cases h
        · replace h : attemptChilds o node n k
              ⟨g3, st.uuidCtr + 1, st.childCtr, st.nameCtr + 1⟩
              (next ++ [o.freshUuid st.uuidCtr]) (i + 1) =
              .ok (st', next', i', brk) := by
            rw [hac] at h
            exact h
          obtain ⟨ih1, ih2, ih3, ih4⟩ := ih _ _ _ _ _ _ _ h
          simp only at ih4
          have hlen : g3.nodes.length = st.graph.nodes.length + 1 := by
            cases uu
            rw [add_child_nodes_length hac]
            exact add_node_nodes_length hadd
          have hin : i < n := Nat.lt_of_not_le hni
          have hmax1 : max (i + 1) n = n := Nat.max_eq_right hin
          have hmax2 : max i n = n := Nat.max_eq_right (Nat.le_of_lt hin)
          rw [hmax1] at ih2
          rw [hmax2]
          simp only [List.length_append, List.length_singleton] at ih3
          exact ⟨by omega, ih2, by omega, by omega⟩

theorem levelParents_spec (o : GenOracle) (n : Nat) :
    ∀ (frontier : List Uuid) (st : GenState) (next : List Uuid) (i : Nat) st' next',
      levelParents o n frontier st next i = .ok (st', next') →
      ∃ i', i ≤ i' ∧ i' ≤ max i n ∧ next'.length = next.length + (i' - i) ∧
        st'.graph.nodes.length = st.graph.nodes.length + (i' - i) := by
  intro frontier
  induction frontier with
  | nil =>
    intro st next i st' next' h
    rw [levelParents] at h
    injection h with h
    have h1 : st = st' := congrArg Prod.fst h
    have h2 : next = next' := congrArg Prod.snd h
    subst h1
    subst h2
    exact ⟨i, le_refl _, Nat.le_max_left _ _, by omega, by omega⟩
  | cons node rest ih =>
    intro st next i st' next' h
    rw [levelParents] at h
    rcases hat : attemptChilds o node n ((max (o.childSample st.childCtr) 0).toNat)
        ⟨st.graph, st.uuidCtr, st.childCtr + 1, st.nameCtr⟩ next i with e | ⟨st2, next2, i2, brk⟩
    · rw [hat] at h
      cases h
    · obtain ⟨a1, a2, a3, a4⟩ := attemptChilds_spec o node n _ _ _ _ _ _ _ _ hat
      simp only at a4
      cases brk
      · replace h : levelParents o n rest st2 next2 i2 = .ok (st', next') := by
          rw [hat] at h
          exact h
        obtain ⟨i', b1, b2, b3, b4⟩ := ih st2 next2 i2 st' next' h
        have hb2 : max i2 n ≤ max i n := Nat.max_le.2 ⟨a2, Nat.le_max_right _ _⟩
        exact ⟨i', by omega, by omega, by omega, by omega⟩
      · replace h : (Except.ok (st2, next2) : Except GenError (GenState × List Uuid)) =
            .ok (st', next') := by
          rw [hat] at h
          exact h
        injection h with h
        have h1 : st2 = st' := congrArg Prod.fst h
        have h2 : next2 = next' := congrArg Prod.snd h
        subst h1
        subst h2
        exact ⟨i2, a1, a2, a3, a4⟩

theorem levelParents_stopped (o : GenOracle) (n : Nat) :
    ∀ (frontier : List Uuid) (st : GenState) (next : List Uuid) (i : Nat), n ≤ i →
      ∃ st', levelParents o n frontier st next i = .ok (st', next) ∧
        st'.graph = st.graph := by
  intro frontier
  induction frontier with
  | nil =>
    intro st next i _
    exact ⟨st, by rw [levelParents], rfl⟩
  | cons node rest ih =>
    intro st next i hni
    rcases hk : (max (o.childSample st.childCtr) 0).toNat with _ | k'
    · obtain ⟨st', hrun, hg⟩ := ih ⟨st.graph, st.uuidCtr, st.childCtr + 1, st.nameCtr⟩ next i hni
      refine ⟨st', ?_, hg⟩
      rw [levelParents, hk]
      exact hrun
    · refine ⟨⟨st.graph, st.uuidCtr, st.childCtr + 1, st.nameCtr⟩, ?_, rfl⟩
      rw [levelParents, hk, attemptChilds, if_pos hni]

/-- Claim C4.  Per-level width cap.  First conjunct: for any frontier, running a
level with the sampled target width `n = max(round(width sample), 1)` creates
at most `n` nodes (the next frontier gains at most `n` entries and the node
map grows by at most `n`).  Second conjunct: once the running count `i` has
reached the level target `n`, the rest of the level creates nothing at all —
for every remaining frontier suffix the call returns with the next-frontier
list and the graph both exactly unchanged (each remaining parent receives zero
children), not merely the current parent. -/
theorem C4_width_cap (o : GenOracle) (l : Nat) :
    (∀ frontier st st' next',
      levelParents o ((max (o.widthSample l) 1).toNat) frontier st [] 0 = .ok (st', next') →
      next'.length ≤ (max (o.widthSample l) 1).toNat ∧
      st'.graph.nodes.length ≤ st.graph.nodes.length + (max (o.widthSample l) 1).toNat) ∧
    (∀ n frontier st next i, n ≤ i →
      ∃ st', levelParents o n frontier st next i = .ok (st', next) ∧
        st'.graph = st.graph) := by
  constructor
  · intro frontier st st' next' h
    obtain ⟨i', h1, h2, h3, h4⟩ :=
      levelParents_spec o ((max (o.widthSample l) 1).toNat) frontier st [] 0 st' next' h
    rw [Nat.zero_max] at h2
    simp only [List.length_nil] at h3
    exact ⟨by omega, by omega⟩
  · exact fun n => levelParents_stopped o n

/-- A concrete randomness oracle: identity uuids, constant samples, identity
shuffle. -/
def oTrivial : GenOracle :=
  ⟨none, fun _ => 1, fun _ => 1, fun _ xs => xs, fun i => i, fun _ => none⟩

/-- Witness for C4 at a concrete level run: target width 1, one parent that
asks for one child (cap not yet reached → one node created), and a stopped
level at `i = n = 1` (graph unchanged). -/
theorem C4_witness :
    (∃ st' next', levelParents oTrivial ((max (oTrivial.widthSample 1) 1).toNat)
        [0] ⟨gOneNode, 1, 0, 0⟩ [] 0 = .ok (st', next') ∧
      next'.length ≤ (max (oTrivial.widthSample 1) 1).toNat ∧
      st'.graph.nodes.length ≤ gOneNode.nodes.length + (max (oTrivial.widthSample 1) 1).toNat) ∧
    (∃ st', levelParents oTrivial 1 [0] ⟨gOneNode, 1, 0, 0⟩ [5] 1 = .ok (st', [5]) ∧
      st'.graph = gOneNode) := by
  constructor
  · refine ⟨⟨⟨"g", [(1, ⟨none, .None, []⟩), (0, ⟨some "R", .None, [1]⟩)]⟩, 2, 1, 1⟩, [1],
      ?_, ?_⟩
    · decide
    · exact (C4_width_cap oTrivial 1).1 [0] ⟨gOneNode, 1, 0, 0⟩ _ _ (by decide)
  · exact (C4_width_cap oTrivial 1).2 1 [0] ⟨gOneNode, 1, 0, 0⟩ [5] 1 (le_refl 1)

/-- Claim C5.  If `width_std` or `child_std` is non-positive, `generate` returns
the distribution error — and does so for *every* oracle, i.e. before any
randomness is consumed and before any node is created, so no partial graph can
be produced (the result carries no graph at all).  Conversely, when both
standard deviations are positive both sampler constructions succeed.
(`Normal::new` itself is spec-modelled over `ℚ`: the crate is external to this
repository; per the spec a non-positive standard deviation is the failure
condition, and `ℚ` has no NaN/infinities.) -/
theorem C5_distribution_error (cfg : Config) :
    ((cfg.width_std ≤ 0 ∨ cfg.child_std ≤ 0) →
      ∀ o : GenOracle, generate cfg o = .error .RandNormalDistribution) ∧
    (0 < cfg.width_std → 0 < cfg.child_std →
      normalNew cfg.width_mean cfg.width_std = .ok () ∧
      normalNew cfg.child_mean cfg.child_std = .ok ()) := by
  constructor
  · intro h o
    unfold generate normalNew
    by_cases hw : cfg.width_std ≤ 0
    · rw [if_pos hw]
    · have hc : cfg.child_std ≤ 0 := by
        rcases h with h | h
        · exact absurd h hw
        · exact h
      rw [if_neg hw, if_pos hc]
  · intro hw hc
    constructor
    · unfold normalNew
      rw [if_neg (not_le.2 hw)]
    · unfold normalNew
      rw [if_neg (not_le.2 hc)]

/-- Witness for C5: a config with `width_std = 0` is rejected regardless of
the oracle; positive deviations construct both samplers. -/
theorem C5_witness :
    generate ⟨none, 3, 10, 0, 3, 1, 42⟩ oTrivial = .error .RandNormalDistribution ∧
    (normalNew (10 : Rat) 1 = .ok () ∧ normalNew (3 : Rat) 1 = .ok ()) :=
  ⟨(C5_distribution_error ⟨none, 3, 10, 0, 3, 1, 42⟩).1 (Or.inl (le_refl 0)) oTrivial,
   (C5_distribution_error ⟨none, 3, 10, 1, 3, 1, 42⟩).2 (by norm_num) (by norm_num)⟩

/-- Claim C7.  `generate` is a pure function of its config together with the
seeded randomness stream (the oracle, itself a function of `cfg.seed`): two
calls with identical config and identical oracle produce graphs with identical
node count, edge count and per-level size sequence. -/
theorem C7_deterministic (cfg₁ cfg₂ : Config) (o₁ o₂ : GenOracle)
    (g₁ g₂ : AcyclicGraph) (hc : cfg₁ = cfg₂) (ho : o₁ = o₂)
    (h₁ : generate cfg₁ o₁ = .ok g₁) (h₂ : generate cfg₂ o₂ = .ok g₂) :
    nodeCount g₁ = nodeCount g₂ ∧ edgeCount g₁ = edgeCount g₂ ∧
      levelSizes g₁ = levelSizes g₂ := by
  subst hc
  subst ho
  rw [h₁] at h₂
  injection h₂ with h₂
  rw [h₂]
  exact ⟨rfl, rfl, rfl⟩

/-- The graph produced by a depth-1 run with the trivial oracle: the root
only. -/
def gRootOnly : AcyclicGraph :=
  ⟨"w", [(0, ⟨some "Root", .Text "I'm the root of all evil", []⟩)]⟩

/-- Witness for C7: two identical depth-1 runs agree on all three observables. -/
theorem C7_witness :
    nodeCount gRootOnly = nodeCount gRootOnly ∧
    edgeCount gRootOnly = edgeCount gRootOnly ∧
    levelSizes gRootOnly = levelSizes gRootOnly :=
  C7_deterministic ⟨some "w", 1, 10, 1, 3, 1, 42⟩ ⟨some "w", 1, 10, 1, 3, 1, 42⟩
    oTrivial oTrivial gRootOnly gRootOnly rfl rfl (by decide) (by decide)

/-! ## The generator tree invariant (claim C3) -/

theorem keys_addNode {g : AcyclicGraph} {u : Uuid} {name : Option String}
    {data : NodeData} :
    ({ g with nodes := (u, ⟨name, data, []⟩) :: g.nodes } : AcyclicGraph).keys =
      u :: g.keys := rfl

theorem reach_mono_addNode {g : AcyclicGraph} {u : Uuid} {name : Option String}
    {data : NodeData} (hu : u ∉ g.keys) {a b : Uuid} (h : Reach g a b) :
    Reach { g with nodes := (u, ⟨name, data, []⟩) :: g.nodes } a b := by
  induction h with
  | refl => exact Relation.ReflTransGen.refl
  | tail _ hedge ih =>
    refine Relation.ReflTransGen.tail ih (edgeB_addNode.2 ⟨?_, hedge⟩)
    intro hau
    exact hu (hau ▸ edgeB_source_mem_keys hedge)

/-- The invariant maintained by the generator while it grows the graph:
the graph satisfies the store invariants, the designated root is present,
has no parent and reaches every node, every node has at most one parent,
and every key was drawn from the fresh-uuid stream strictly below the current
counter (so the next draw is new when the stream is injective). -/
structure GenInv (o : GenOracle) (root : Uuid) (g : AcyclicGraph) (ctr : Nat) : Prop where
  wf : WF g
  keysNodup : KeysNodup g
  childsNodup : ChildsNodup g
  root_mem : root ∈ g.keys
  keys_fresh : ∀ u ∈ g.keys, ∃ j, j < ctr ∧ o.freshUuid j = u
  root_no_parent : ∀ a, edgeB g a root ≠ true
  unique_parent : ∀ u a b, edgeB g a u = true → edgeB g b u = true → a = b
  reach_all : ∀ u ∈ g.keys, Reach g root u

/-- One node creation plus its single attach during generation: it cannot
panic (the fresh uuid is new, the new edge targets a brand-new leaf) and it
preserves the generator invariant. -/
theorem genStep_preserves {o : GenOracle} (hinj : Function.Injective o.freshUuid)
    {root : Uuid} {g : AcyclicGraph} {ctr : Nat} (nmctr : Nat)
    (hinv : GenInv o root g ctr) {node : Uuid} (hnode : node ∈ g.keys) :
    ∃ g2 g3,
      g.add_node_uuid (o.freshUuid ctr) (o.petname nmctr) .None = some g2 ∧
      g2.add_child node (o.freshUuid ctr) = (.ok (), g3) ∧
      GenInv o root g3 (ctr + 1) ∧
      (∀ x ∈ g.keys, x ∈ g3.keys) ∧ o.freshUuid ctr ∈ g3.keys := by
  set newU := o.freshUuid ctr with hnewU
  have hnewfresh : newU ∉ g.keys := by
    intro hmem
    obtain ⟨j, hj, hje⟩ := hinv.keys_fresh newU hmem
    exact absurd (hinj hje) (by omega)
  have hlnone : lookupNode g.nodes newU = none := lookupNode_eq_none.2 hnewfresh
  have hadd : g.add_node_uuid newU (o.petname nmctr) .None =
      some { g with nodes := (newU, ⟨o.petname nmctr, .None, []⟩) :: g.nodes } := by
    unfold AcyclicGraph.add_node_uuid
    rw [hlnone]
  set g2 : AcyclicGraph := { g with nodes := (newU, ⟨o.petname nmctr, .None, []⟩) :: g.nodes }
    with hg2
  have hkeys2 : g2.keys = newU :: g.keys := rfl
  have hwf2 : WF g2 := wf_addNode hinv.wf
  have hlnew : lookupNode g2.nodes newU = some ⟨o.petname nmctr, .None, []⟩ := by
    show lookupNode ((newU, _) :: g.nodes) newU = _
    rw [lookupNode_cons, if_pos rfl]
  have hnodene : node ≠ newU := fun h => hnewfresh (h ▸ hnode)
  obtain ⟨n0, hn0⟩ := lookup_of_mem_keys hnode
  have hln0 : lookupNode g2.nodes node = some n0 := by
    show lookupNode ((newU, _) :: g.nodes) node = _
    rw [lookupNode_cons, if_neg (fun h : newU = node => hnodene h.symm)]
    exact hn0
  have hnotchild : newU ∉ n0.childs := by
    intro hmem
    exact hnewfresh (hinv.wf (node, n0) (lookupNode_mem hn0) newU hmem)
  have hnreach : ¬ Reach g2 newU node := by
    intro hr
    exact hnodene (reach_of_childs_nil hlnew rfl hr)
  have hnew2 : newU ∈ g2.keys := by
    rw [hkeys2]
    exact List.mem_cons_self _ _
  have hac := add_child_success hwf2 hnreach hnew2 hln0 hnotchild
  set g3 := g2.insertChild node newU with hg3
  have hkeys3 : g3.keys = newU :: g.keys := by
    rw [hg3, keys_insertChild]
    exact hkeys2
  have hedge3 : ∀ a b : Uuid, edgeB g3 a b = true ↔
      ((a ≠ newU ∧ edgeB g a b = true) ∨ (a = node ∧ b = newU)) := by
    intro a b
    rw [hg3, edgeB_insertChild]
    constructor
    · rintro (h | ⟨h1, h2, _⟩)
      · exact Or.inl ((edgeB_addNode (g := g)).1 h)
      · exact Or.inr ⟨h1, h2⟩
    · rintro (⟨h1, h2⟩ | ⟨h1, h2⟩)
      · exact Or.inl ((edgeB_addNode (g := g)).2 ⟨h1, h2⟩)
      · exact Or.inr ⟨h1, h2, mem_keys_of_lookup hln0⟩
  have hreach_lift : ∀ a b : Uuid, Reach g a b → Reach g3 a b := by
    intro a b h
    rw [hg3]
    exact reach_mono_insertChild (reach_mono_addNode hnewfresh h)
  have hedge_new : edgeB g3 node newU = true := (hedge3 node newU).2 (Or.inr ⟨rfl, rfl⟩)
  refine ⟨g2, g3, hadd, hac, ?_, ?_, ?_⟩
  · refine ⟨?_, ?_, ?_, ?_, ?_, ?_, ?_, ?_⟩
    · exact wf_insertChild hwf2 hnew2
    · exact keysNodup_insertChild (keysNodup_addNode hinv.keysNodup hlnone)
    · exact childsNodup_insertChild (childsNodup_addNode hinv.childsNodup) hln0 hnotchild
    · rw [hkeys3]
      exact List.mem_cons_of_mem _ hinv.root_mem
    · intro u hu
      rw [hkeys3] at hu
      rcases List.mem_cons.1 hu with hu | hu
      · exact ⟨ctr, by omega, hu.symm⟩
      · obtain ⟨j, hj, hje⟩ := hinv.keys_fresh u hu
        exact ⟨j, by omega, hje⟩
    · intro a ha
      rcases (hedge3 a root).1 ha with ⟨_, h2⟩ | ⟨_, h2⟩
      · exact hinv.root_no_parent a h2
      · exact hnewfresh (h2 ▸ hinv.root_mem)
    · intro u a b ha hb
      rcases (hedge3 a u).1 ha with ⟨ha1, ha2⟩ | ⟨ha1, ha2⟩
      · rcases (hedge3 b u).1 hb with ⟨hb1, hb2⟩ | ⟨hb1, hb2⟩
        · exact hinv.unique_parent u a b ha2 hb2
        · exact absurd (hb2 ▸ edgeB_target_mem_keys hinv.wf ha2) hnewfresh
      · rcases (hedge3 b u).1 hb with ⟨hb1, hb2⟩ | ⟨hb1, hb2⟩
        · exact absurd (ha2 ▸ edgeB_target_mem_keys hinv.wf hb2) hnewfresh
        · rw [ha1, hb1]
    · intro u hu
      rw [hkeys3] at hu
      rcases List.mem_cons.1 hu with hu | hu
      · subst hu
        exact Relation.ReflTransGen.tail (hreach_lift _ _ (hinv.reach_all node hnode))
          hedge_new
      · exact hreach_lift _ _ (hinv.reach_all u hu)
  · intro x hx
    rw [hkeys3]
    exact List.mem_cons_of_mem _ hx
  · rw [hkeys3]
    exact List.mem_cons_self _ _

theorem attemptChilds_inv {o : GenOracle} (hinj : Function.Injective o.freshUuid)
    {root : Uuid} (node : Uuid) (n : Nat) :
    ∀ (k : Nat) (st : GenState) (next : List Uuid) (i : Nat),
      GenInv o root st.graph st.uuidCtr → node ∈ st.graph.keys →
      (∀ x ∈ next, x ∈ st.graph.keys) →
      ∃ st' next' i' brk, attemptChilds o node n k st next i = .ok (st', next', i', brk) ∧
        GenInv o root st'.graph st'.uuidCtr ∧
        (∀ x ∈ st.graph.keys, x ∈ st'.graph.keys) ∧
        (∀ x ∈ next', x ∈ st'.graph.keys) := by
  intro k
  induction k with
  | zero =>
    intro st next i hinv _ hnext
    exact ⟨st, next, i, false, by rw [attemptChilds], hinv, fun x hx => hx, hnext⟩
  | succ k ih =>
    intro st next i hinv hnode hnext
    by_cases hni : n ≤ i
    · exact ⟨st, next, i, true, by rw [attemptChilds, if_pos hni], hinv, fun x hx => hx, hnext⟩
    · obtain ⟨g2, g3, hadd, hac, hinv3, hsub3, hnewmem⟩ :=
        genStep_preserves hinj st.nameCtr hinv hnode
      have hnext3 : ∀ x ∈ next ++ [o.freshUuid st.uuidCtr], x ∈ g3.keys := by
        intro x hx
        rcases List.mem_append.1 hx with hx | hx
        · exact hsub3 x (hnext x hx)
        · have hxe : x = o.freshUuid st.uuidCtr := by simpa using hx
          exact hxe ▸ hnewmem
      obtain ⟨st', next', i', brk, hrun, hinv', hsub', hnext'⟩ :=
        ih ⟨g3, st.uuidCtr + 1, st.childCtr, st.nameCtr + 1⟩
          (next ++ [o.freshUuid st.uuidCtr]) (i + 1) hinv3 (hsub3 node hnode) hnext3
      refine ⟨st', next', i', brk, ?_, hinv', fun x hx => hsub' x (hsub3 x hx), hnext'⟩
      rw [attemptChilds, if_neg hni, hadd]
      show (match g2.add_child node (o.freshUuid st.uuidCtr) with
        | (.ok _, g') => attemptChilds o node n k
            ⟨g', st.uuidCtr + 1, st.childCtr, st.nameCtr + 1⟩
            (next ++ [o.freshUuid st.uuidCtr]) (i + 1)
        | (.error _, _) =>
            (Except.error GenError.Panic :
              Except GenError (GenState × List Uuid × Nat × Bool))) =
        .ok (st', next', i', brk)
      rw [hac]
      exact hrun

theorem levelParents_inv {o : GenOracle} (hinj : Function.Injective o.freshUuid)
    {root : Uuid} (n : Nat) :
    ∀ (frontier : List Uuid) (st : GenState) (next : List Uuid) (i : Nat),
      GenInv o root st.graph st.uuidCtr →
      (∀ x ∈ frontier, x ∈ st.graph.keys) → (∀ x ∈ next, x ∈ st.graph.keys) →
      ∃ st' next', levelParents o n frontier st next i = .ok (st', next') ∧
        GenInv o root st'.graph st'.uuidCtr ∧
        (∀ x ∈ st.graph.keys, x ∈ st'.graph.keys) ∧
        (∀ x ∈ next', x ∈ st'.graph.keys) := by
  intro frontier
  induction frontier with
  | nil =>
    intro st next i hinv _ hnext
    exact ⟨st, next, by rw [levelParents], hinv, fun x hx => hx, hnext⟩
  | cons node rest ih =>
    intro st next i hinv hfront hnext
    obtain ⟨st2, next2, i2, brk, hrun, hinv2, hsub2, hnext2⟩ :=
      attemptChilds_inv hinj node n ((max (o.childSample st.childCtr) 0).toNat)
        ⟨st.graph, st.uuidCtr, st.childCtr + 1, st.nameCtr⟩ next i
        hinv (hfront node (List.mem_cons_self _ _)) hnext
    cases brk
    · obtain ⟨st', next', hrun', hinv', hsub', hnext'⟩ :=
        ih st2 next2 i2 hinv2
          (fun x hx => hsub2 x (hfront x (List.mem_cons_of_mem _ hx))) hnext2
      refine ⟨st', next', ?_, hinv', fun x hx => hsub' x (hsub2 x hx), hnext'⟩
      rw [levelParents, hrun]
      exact hrun'
    · refine ⟨st2, next2, ?_, hinv2, hsub2, hnext2⟩
      rw [levelParents, hrun]

theorem genLevels_inv {o : GenOracle} (hinj : Function.Injective o.freshUuid)
    (hshuffle : ∀ l xs, ∀ x ∈ o.shuffle l xs, x ∈ xs) {root : Uuid} :
    ∀ (ls : List Nat) (current : List Uuid) (st : GenState),
      GenInv o root st.graph st.uuidCtr →
      (∀ x ∈ current, x ∈ st.graph.keys) →
      ∃ st' next, genLevels o ls current st = .ok (st', next) ∧
        GenInv o root st'.graph st'.uuidCtr := by
  intro ls
  induction ls with
  | nil =>
    intro current st hinv _
    exact ⟨st, [], by rw [genLevels], hinv⟩
  | cons l ls ih =>
    intro current st hinv hcur
    obtain ⟨st2, next2, hrun, hinv2, _, hnext2⟩ :=
      levelParents_inv hinj ((max (o.widthSample l) 1).toNat) (o.shuffle l current)
        st [] 0 hinv (fun x hx => hcur x (hshuffle l current x hx)) (by intro x hx; cases hx)
    obtain ⟨st', next', hrun', hinv'⟩ := ih next2 st2 hinv2 hnext2
    refine ⟨st', next', ?_, hinv'⟩
    rw [genLevels, hrun]
    exact hrun'

/-- Claim C3.  For every valid config (positive standard deviations, depth ≥ 1)
and every seeded randomness stream whose fresh-uuid draws never collide and
whose shuffle only permutes its input, `generate` succeeds — every internal
`add_child` call returns `Ok` (a `Cycle`/`ChildAlreadyExist`/`UuidNotFound`
rejection or a uuid collision would surface as the modelled `Panic`) — and
the produced graph passes both validator checks: exactly one root and exactly
one path from the root to every node. -/
theorem C3_generator_tree (cfg : Config) (o : GenOracle)
    (hinj : Function.Injective o.freshUuid)
    (hshuffle : ∀ l xs, (o.shuffle l xs).Perm xs)
    (hw : 0 < cfg.width_std) (hc : 0 < cfg.child_std) (_hd : 1 ≤ cfg.deepth) :
    ∃ g, generate cfg o = .ok g ∧ validator g = .ok () := by
  have hnw : normalNew cfg.width_mean cfg.width_std = .ok () := by
    unfold normalNew
    rw [if_neg (not_le.2 hw)]
  have hnc : normalNew cfg.child_mean cfg.child_std = .ok () := by
    unfold normalNew
    rw [if_neg (not_le.2 hc)]
  set root := o.freshUuid 0 with hroot
  set g0 : AcyclicGraph :=
    ⟨cfg.name.getD (o.graphPetname.getD "output"),
      [(root, ⟨some "Root", .Text "I'm the root of all evil", []⟩)]⟩ with hg0
  have hadd0 : (AcyclicGraph.new (cfg.name.getD (o.graphPetname.getD "output"))).add_node_uuid
      root (some "Root") (.Text "I'm the root of all evil") = some g0 := rfl
  have hlook0 : ∀ a : Uuid, ∀ nd : Node, lookupNode g0.nodes a = some nd →
      a = root ∧ nd = ⟨some "Root", .Text "I'm the root of all evil", []⟩ := by
    intro a nd h
    rw [hg0] at h
    rw [show (⟨_, [(root, ⟨some "Root", .Text "I'm the root of all evil", []⟩)]⟩ :
        AcyclicGraph).nodes = [(root, ⟨some "Root", .Text "I'm the root of all evil", []⟩)]
      from rfl, lookupNode_cons] at h
    by_cases ha : root = a
    · rw [if_pos ha] at h
      injection h with h
      exact ⟨ha.symm, h.symm⟩
    · rw [if_neg ha] at h
      cases h
  have hnoedge0 : ∀ a b : Uuid, edgeB g0 a b ≠ true := by
    intro a b h
    obtain ⟨nd, hl, hb⟩ := edgeB_iff.1 h
    obtain ⟨_, hnd⟩ := hlook0 a nd hl
    rw [hnd] at hb
    cases hb
  have hkeys0 : g0.keys = [root] := rfl
  have hinv0 : GenInv o root g0 1 := by
    refine ⟨?_, ?_, ?_, ?_, ?_, ?_, ?_, ?_⟩
    · intro e he c hc'
      rw [hg0] at he
      rcases List.mem_cons.1 he with he | he
      · rw [he] at hc'
        cases hc'
      · cases he
    · rw [KeysNodup, hkeys0]
      exact List.nodup_singleton _
    · intro e he
      rw [hg0] at he
      rcases List.mem_cons.1 he with he | he
      · rw [he]
        exact List.nodup_nil
      · cases he
    · rw [hkeys0]
      exact List.mem_cons_self _ _
    · intro u hu
      rw [hkeys0] at hu
      have hur : u = root := by simpa using hu
      exact ⟨0, by omega, hur.symm⟩
    · exact fun a => hnoedge0 a root
    · intro u a b ha _
      exact absurd ha (hnoedge0 a u)
    · intro u hu
      rw [hkeys0] at hu
      have hur : u = root := by simpa using hu
      exact hur ▸ Relation.ReflTransGen.refl
  obtain ⟨stF, nextF, hlev, hinvF⟩ :=
    genLevels_inv hinj (fun l xs x hx => (hshuffle l xs).mem_iff.1 hx)
      (List.range' 1 (cfg.deepth - 1)) [root] ⟨g0, 1, 0, 0⟩ hinv0
      (by
        intro x hx
        have hxr : x = root := by simpa using hx
        rw [hxr, hkeys0]
        exact List.mem_cons_self _ _)
  refine ⟨stF.graph, ?_, ?_⟩
  · unfold generate
    rw [hnw, hnc]
    show (match (AcyclicGraph.new (cfg.name.getD (o.graphPetname.getD "output"))).add_node_uuid
        (o.freshUuid 0) (some "Root") (.Text "I'm the root of all evil") with
      | none => (Except.error GenError.Panic : Except GenError AcyclicGraph)
      | some g =>
        match genLevels o (List.range' 1 (cfg.deepth - 1)) [o.freshUuid 0] ⟨g, 1, 0, 0⟩ with
        | .error e => .error e
        | .ok (st, _) => .ok st.graph) = .ok stF.graph
    rw [hadd0]
    show (match genLevels o (List.range' 1 (cfg.deepth - 1)) [root] ⟨g0, 1, 0, 0⟩ with
      | .error e => (Except.error e : Except GenError AcyclicGraph)
      | .ok (st, _) => .ok st.graph) = .ok stF.graph
    rw [hlev]
  · have hroots : rootsList stF.graph = [root] := by
      refine rootsList_eq_singleton hinvF.keysNodup hinvF.root_mem ?_ ?_
      · exact (parentsOf_eq_nil_iff_no_edge hinvF.keysNodup).2 hinvF.root_no_parent
      · intro u hu hne hp
        have hr := hinvF.reach_all u hu
        rcases Relation.ReflTransGen.cases_tail hr with h | ⟨z, _, hz⟩
        · exact hne h
        · exact absurd hz ((parentsOf_eq_nil_iff_no_edge hinvF.keysNodup).1 hp z)
    have hpath : have_only_one_path stF.graph root = true :=
      bfsPath_true_of_unique_parent hinvF.childsNodup hinvF.root_no_parent
        hinvF.unique_parent
    exact validator_ok_iff_bfs.2 ⟨root, hroots, hpath⟩

/-- Witness for C3: a concrete two-level run with the trivial oracle
(identity uuids are injective, the identity shuffle is a permutation). -/
theorem C3_witness :
    ∃ g, generate ⟨some "w", 2, 10, 1, 1, 1, 42⟩ oTrivial = .ok g ∧
      validator g = .ok () :=
  C3_generator_tree ⟨some "w", 2, 10, 1, 1, 1, 42⟩ oTrivial (fun a b h => h)
    (fun _ xs => List.Perm.refl xs) (by norm_num) (by norm_num) (by norm_num)

end Dag
